import Mathlib

/-!
# Camomile: `Source/PluginParameter.cpp`

A shallow embedding of `CamomileAudioParameter` and a verification of the
properties stated for it.

Numbers.  The value of a C `float` expression is a `CFloat`: a rational number
or one of `+inf`, `-inf`, `NaN`, the non-finite results that the unguarded
divisions by `m_maximum - m_minimum` and by `m_maximum` produce.  Zero is
unsigned and divides like `+0`.  The immutable range descriptor of a parameter
(`m_minimum`, `m_maximum`, `m_default`) is finite and stored as `ℚ`; the
mutable `m_value` is a `CFloat`.  `int` is modelled by `Int`.

The arithmetic of the source is read in two ways.

* The operations `+`, `-`, `*`, `/` of `CFloat` are exact.  The functions of
  the namespace `CamomileAudioParameter` use them.  They carry the properties
  that rounding does not decide: label lookup, the default value, the
  snapshot, the range of the stored value, the factory, the frame and the
  zero divisors.
* `Binary32.fadd`, `fsub`, `fmul`, `fdiv` round every finite result to
  IEEE-754 binary32 (round to nearest, ties to even; the exponent range is not
  bounded, so there is no overflow and no subnormal number).  The functions of
  the namespace `Binary32` are the same source lines with these operations.
  They carry the properties that rounding decides: the scaling round trips,
  quantisation and the label index of `getText`.
-/

namespace Camomile

/-! ## Exact-arithmetic floats -/

/-- Value of a C floating-point expression: a finite number or a non-finite one. -/
inductive CFloat where
  | fin (q : ℚ)
  | pinf
  | ninf
  | nan
  deriving DecidableEq

namespace CFloat

instance : Coe ℚ CFloat := ⟨CFloat.fin⟩

/-- The infinity carrying the sign of `s`; `NaN` when `s = 0` (as in `0 * inf`, `0 / 0`). -/
def ofSign (s : ℚ) : CFloat :=
  if 0 < s then pinf else if s < 0 then ninf else nan

/-- Unary minus. -/
def neg : CFloat → CFloat
  | fin a => fin (-a)
  | pinf => ninf
  | ninf => pinf
  | nan => nan

/-- Addition: `inf + (-inf)` is `NaN`, an infinity absorbs every finite number. -/
def add : CFloat → CFloat → CFloat
  | fin a, fin b => fin (a + b)
  | nan, _ => nan
  | _, nan => nan
  | pinf, ninf => nan
  | ninf, pinf => nan
  | pinf, _ => pinf
  | _, pinf => pinf
  | ninf, _ => ninf
  | _, ninf => ninf

/-- Multiplication: `0 * inf` is `NaN`, otherwise the signs multiply. -/
def mul : CFloat → CFloat → CFloat
  | fin a, fin b => fin (a * b)
  | nan, _ => nan
  | _, nan => nan
  | fin a, pinf => ofSign a
  | pinf, fin a => ofSign a
  | fin a, ninf => ofSign (-a)
  | ninf, fin a => ofSign (-a)
  | pinf, pinf => pinf
  | ninf, ninf => pinf
  | pinf, ninf => ninf
  | ninf, pinf => ninf

/-- Division: `x / 0` is the infinity with the sign of `x` (`NaN` for `0 / 0`),
a finite number over an infinity is `0`, `inf / inf` is `NaN`. -/
def div : CFloat → CFloat → CFloat
  | fin a, fin b => if b = 0 then ofSign a else fin (a / b)
  | nan, _ => nan
  | _, nan => nan
  | fin _, pinf => fin 0
  | fin _, ninf => fin 0
  | pinf, fin b => if b < 0 then ninf else pinf
  | ninf, fin b => if b < 0 then pinf else ninf
  | pinf, pinf => nan
  | pinf, ninf => nan
  | ninf, pinf => nan
  | ninf, ninf => nan

instance : Neg CFloat := ⟨neg⟩
instance : Add CFloat := ⟨add⟩
instance : Sub CFloat := ⟨fun a b => add a (neg b)⟩
instance : Mul CFloat := ⟨mul⟩
instance : Div CFloat := ⟨div⟩

/-- The comparison `a < b` of C: false as soon as one side is `NaN`. -/
def lt : CFloat → CFloat → Bool
  | fin a, fin b => decide (a < b)
  | nan, _ => false
  | _, nan => false
  | _, ninf => false
  | pinf, _ => false
  | ninf, _ => true
  | _, pinf => true

/-- The comparison `a > b` of C. -/
def gt (a b : CFloat) : Bool := lt b a

/-- Nearest integer of a rational, halfway cases away from zero (`round` of `<cmath>`). -/
def roundQ (x : ℚ) : ℤ :=
  if 0 ≤ x then ⌊x + 1 / 2⌋ else ⌈x - 1 / 2⌉

/-- `round` of `<cmath>`; non-finite arguments are returned unchanged. -/
def round : CFloat → CFloat
  | fin a => fin (roundQ a)
  | x => x

/-- `floor` of `<cmath>`; non-finite arguments are returned unchanged. -/
def floor : CFloat → CFloat
  | fin a => fin (⌊a⌋ : ℤ)
  | x => x

/-- `ceil` of `<cmath>`; non-finite arguments are returned unchanged. -/
def ceil : CFloat → CFloat
  | fin a => fin (⌈a⌉ : ℤ)
  | x => x

/-- Truncation of a rational toward zero. -/
def truncQ (x : ℚ) : ℤ :=
  if 0 ≤ x then ⌊x⌋ else ⌈x⌉

/-- `static_cast<int>` of a float: truncation toward zero; the conversion of a
non-finite value is undefined (`none`). -/
def toInt : CFloat → Option ℤ
  | fin a => some (truncQ a)
  | _ => none

end CFloat

/-! ## JUCE strings and string arrays (library semantics) -/

/-- `String::substring (start, end)`: the characters from index `start`
(negative counts as 0) up to, not including, index `end`. -/
def substring (s : String) (start stop : ℤ) : String :=
  let b := if start < 0 then 0 else start
  if stop ≤ b then "" else ⟨(s.data.drop b.toNat).take (stop - b).toNat⟩

/-- Loop of `StringArray::indexOf`: the first index, counted from `i`, of an
element equal to `text`, or `-1`. -/
def indexOfFrom (text : String) : List String → ℤ → ℤ
  | [], _ => -1
  | s :: rest, i => if s = text then i else indexOfFrom text rest (i + 1)

/-- `StringArray::indexOf (text)`. -/
def indexOf (strings : List String) (text : String) : ℤ :=
  indexOfFrom text strings 0

/-- `StringArray::operator[]`: the element at `index`, the empty string when
`index` is out of range. -/
def elementAt (strings : List String) (index : ℤ) : String :=
  if 0 ≤ index then strings.getD index.toNat "" else ""

/-! ## The parameter -/

/-- Fields of `CamomileAudioParameter`. -/
structure CamomileAudioParameter where
  m_value : CFloat
  m_name : String
  m_label : String
  m_minimum : ℚ
  m_maximum : ℚ
  m_default : ℚ
  m_nsteps : ℤ
  m_automatable : Bool
  m_meta : Bool
  m_elements : List String

namespace CamomileAudioParameter

/-- `getValue` (lines 45-48). -/
def getValue (p : CamomileAudioParameter) : CFloat :=
  p.m_value

/-- `getDefaultValue` (lines 77-80). -/
def getDefaultValue (p : CamomileAudioParameter) : CFloat :=
  ((p.m_default : CFloat) - (p.m_minimum : CFloat))
    / ((p.m_maximum : CFloat) - (p.m_minimum : CFloat))

/-- `isDiscrete` (lines 87-90). -/
def isDiscrete (p : CamomileAudioParameter) : Bool :=
  decide (p.m_nsteps > 0) && decide ((p.m_nsteps : ℚ) < 10 ^ 37)

/-- `getNumSteps` (lines 82-85); `dflt` stands for
`AudioProcessor::getDefaultNumParameterSteps()`. -/
def getNumSteps (dflt : ℤ) (p : CamomileAudioParameter) : ℤ :=
  if p.isDiscrete then p.m_nsteps else dflt

/-- Range constructor (lines 15-22): the members are initialised from the
arguments, then the body stores `getDefaultValue()` in `m_value`. -/
def mkRange (name label : String) (min max def_ : ℚ) (nsteps : ℤ)
    (automatable meta_ : Bool) : CamomileAudioParameter :=
  let p : CamomileAudioParameter :=
    { m_value := CFloat.fin 0, m_name := name, m_label := label,
      m_minimum := min, m_maximum := max, m_default := def_, m_nsteps := nsteps,
      m_automatable := automatable, m_meta := meta_, m_elements := [] }
  { p with m_value := p.getDefaultValue }

/-- Elements constructor (lines 24-31). -/
def mkElements (name label : String) (elems : List String) (def_ : ℤ)
    (automatable meta_ : Bool) : CamomileAudioParameter :=
  let p : CamomileAudioParameter :=
    { m_value := CFloat.fin 0, m_name := name, m_label := label,
      m_minimum := 0, m_maximum := ((elems.length : ℤ) - 1 : ℤ), m_default := (def_ : ℤ),
      m_nsteps := (elems.length : ℤ),
      m_automatable := automatable, m_meta := meta_, m_elements := elems }
  { p with m_value := p.getDefaultValue }

/-- `setValue` (lines 55-65). -/
def setValue (p : CamomileAudioParameter) (newValue : CFloat) : CamomileAudioParameter :=
  if p.isDiscrete then
    { p with m_value := CFloat.round (newValue * (p.m_maximum : CFloat)) / (p.m_maximum : CFloat) }
  else
    { p with m_value := newValue }

/-- `setOriginalScaledValue` (lines 67-70). -/
def setOriginalScaledValue (p : CamomileAudioParameter) (newValue : CFloat) :
    CamomileAudioParameter :=
  { p with m_value := (newValue - (p.m_minimum : CFloat))
      / ((p.m_maximum : CFloat) - (p.m_minimum : CFloat)) }

/-- `isOrientationInverted` (lines 121-124). -/
def isOrientationInverted (p : CamomileAudioParameter) : Bool :=
  decide (p.m_minimum > p.m_maximum)

/-- `getValueForText` (lines 109-119); `getFloatValue` stands for the JUCE
`String::getFloatValue`. -/
def getValueForText (getFloatValue : String → CFloat) (p : CamomileAudioParameter)
    (text : String) : CFloat :=
  if p.m_elements.isEmpty then
    getFloatValue text
  else
    (CFloat.fin (indexOf p.m_elements text)) / (p.m_maximum : CFloat)

/-- State of a parameter after the constructor, with `m_value` overwritten by
`v`: the shape of every parameter later in its life, since `m_value` is the
only member the methods assign. -/
def withValue (p : CamomileAudioParameter) (v : CFloat) : CamomileAudioParameter :=
  { p with m_value := v }

end CamomileAudioParameter

/-! ## State snapshot: the JUCE `XmlElement` (library semantics) -/

/-- An `XmlElement`: tag name, attributes in document order, child elements in
document order.  JUCE keeps a numeric attribute as decimal text; here the
attribute holds the number itself (writing and reading back is exact). -/
inductive XmlElement where
  | mk (tag : String) (attributes : List (String × CFloat)) (children : List XmlElement)

namespace XmlElement

/-- Tag name of an element. -/
def tag : XmlElement → String
  | mk t _ _ => t

/-- Attributes of an element. -/
def attributes : XmlElement → List (String × CFloat)
  | mk _ a _ => a

/-- Child elements of an element. -/
def children : XmlElement → List XmlElement
  | mk _ _ c => c

/-- `XmlElement::getDoubleAttribute (name, defaultReturnValue)`. -/
def getDoubleAttribute (x : XmlElement) (name : String) (defaultReturnValue : CFloat) : CFloat :=
  match x.attributes.find? (fun a => a.1 = name) with
  | some a => a.2
  | none => defaultReturnValue

/-- `XmlElement::getChildByName`: the first child with that tag, if any. -/
def getChildByName (x : XmlElement) (name : String) : Option XmlElement :=
  x.children.find? (fun c => c.tag = name)

end XmlElement

/-- Attribute name `String("param") + String(i+1)` used by the snapshot. -/
def paramKey (i : ℕ) : String :=
  "param" ++ toString (i + 1)

/-- Loop of `loadStateInformation` (lines 180-183) from index `i` on. -/
def loadLoop (params : XmlElement) : List CamomileAudioParameter → ℕ → List CamomileAudioParameter
  | [], _ => []
  | p :: rest, i =>
    p.setValue (params.getDoubleAttribute (paramKey i) p.getValue) :: loadLoop params rest (i + 1)

/-- `loadStateInformation` (lines 175-185): the parameters after the call. -/
def loadStateInformation (xml : XmlElement) (parameters : List CamomileAudioParameter) :
    List CamomileAudioParameter :=
  match xml.getChildByName "params" with
  | some params => loadLoop params parameters 0
  | none => parameters

/-! ## Properties used in the statements -/

/-- A stored value is normalized when it is a finite number of `[0, 1]`. -/
def Normalized : CFloat → Prop
  | CFloat.fin q => 0 ≤ q ∧ q ≤ 1
  | _ => False

/-- `x` lies between `a` and `b`, whichever of the two is the larger. -/
def Between (a b x : ℚ) : Prop :=
  (a ≤ x ∧ x ≤ b) ∨ (b ≤ x ∧ x ≤ a)

/-- A call that writes the stored value. -/
inductive ValueCall where
  | setValue (v : ℚ)
  | setOriginalScaledValue (x : ℚ)

/-- The parameter after one call. -/
def ValueCall.apply (p : CamomileAudioParameter) : ValueCall → CamomileAudioParameter
  | ValueCall.setValue v => p.setValue (CFloat.fin v)
  | ValueCall.setOriginalScaledValue x => p.setOriginalScaledValue (CFloat.fin x)

/-- The argument of a call is in range: a normalized value for `setValue`, a
value between `m_minimum` and `m_maximum` for `setOriginalScaledValue`. -/
def ValueCall.InRange (p : CamomileAudioParameter) : ValueCall → Prop
  | ValueCall.setValue v => 0 ≤ v ∧ v ≤ 1
  | ValueCall.setOriginalScaledValue x => Between p.m_minimum p.m_maximum x

/-- The parameter after a sequence of calls. -/
def runCalls (p : CamomileAudioParameter) (calls : List ValueCall) : CamomileAudioParameter :=
  calls.foldl ValueCall.apply p

namespace CamomileAudioParameter

/-- `getName` (lines 35-38). -/
def getName (p : CamomileAudioParameter) (maximumStringLength : ℤ) : String :=
  substring p.m_name 0 maximumStringLength

/-- `getLabel` (lines 40-43). -/
def getLabel (p : CamomileAudioParameter) : String :=
  p.m_label

/-- `isAutomatable` (lines 126-129). -/
def isAutomatable (p : CamomileAudioParameter) : Bool :=
  p.m_automatable

/-- `isMetaParameter` (lines 131-134). -/
def isMetaParameter (p : CamomileAudioParameter) : Bool :=
  p.m_meta

end CamomileAudioParameter

/-- The option map returned by `CamomileParser::getOptions`: option name to
token list, the first entry of a name being the one in force. -/
abbrev Options := List (String × List String)

/-- `options.count (name)`: 1 when the key is present, 0 otherwise. -/
def Options.count (options : Options) (name : String) : ℕ :=
  if (options.lookup name).isSome then 1 else 0

/-- `options[name]`: the token list of the key; for an absent key the map
inserts and returns an empty token list (the insertion is not observed by
`parse`, which never counts a key after indexing it). -/
def Options.get (options : Options) (name : String) : List String :=
  (options.lookup name).getD []

/-- The functions of `CamomileParser` (declared in `PluginParser.h`, defined
outside this file) that `parse` calls. -/
structure CamomileParser where
  getOptions : String → Options
  getString : List String → String
  getFloat : List String → ℚ
  getInteger : List String → ℤ
  getBool : List String → Bool
  getList : List String → List String

/-- `parse` (lines 136-161).  In the list branch `def` is a `float` passed to
the `int` parameter of the elements constructor, hence truncated. -/
def CamomileAudioParameter.parse (P : CamomileParser) (definition : String) :
    CamomileAudioParameter :=
  let options := P.getOptions definition
  let name := if options.count "name" ≠ 0 then P.getString (options.get "name") else ""
  let label := if options.count "min" ≠ 0 then P.getString (options.get "label") else ""
  if options.count "list" ≠ 0 then
    let elems := P.getList (options.get "list")
    let def_ : ℚ := if options.count "default" ≠ 0 then P.getFloat (options.get "default") else 0
    let autom := if options.count "auto" ≠ 0 then P.getBool (options.get "auto") else true
    let meta_ := if options.count "meta" ≠ 0 then P.getBool (options.get "meta") else false
    CamomileAudioParameter.mkElements name label elems (CFloat.truncQ def_) autom meta_
  else
    let min : ℚ := if options.count "min" ≠ 0 then P.getFloat (options.get "min") else 0
    let max : ℚ := if options.count "max" ≠ 0 then P.getFloat (options.get "max") else 1
    let def_ : ℚ := if options.count "default" ≠ 0 then P.getFloat (options.get "default") else min
    let nsteps : ℤ :=
      if options.count "nsteps" ≠ 0 then P.getInteger (options.get "nsteps") else 0
    let autom := if options.count "auto" ≠ 0 then P.getBool (options.get "auto") else true
    let meta_ := if options.count "meta" ≠ 0 then P.getBool (options.get "meta") else false
    CamomileAudioParameter.mkRange name label min max def_ nsteps autom meta_

/-- A parser whose `getOptions` returns the given map whatever the definition
string, and whose `getString` returns `onEmpty` for the empty token list and
joins the tokens otherwise; numbers and flags are read as 0 and false. -/
def fixedParser (options : Options) (onEmpty : String) : CamomileParser where
  getOptions := fun _ => options
  getString := fun tokens => if tokens = [] then onEmpty else String.join tokens
  getFloat := fun _ => 0
  getInteger := fun _ => 0
  getBool := fun _ => false
  getList := fun tokens => tokens

/-! ## Divisions with an explicit zero check -/

/-- Division that fails (`none`) when the divisor is zero. -/
def CFloat.divChecked (a b : CFloat) : Option CFloat :=
  if b = CFloat.fin 0 then none else some (a / b)

namespace CamomileAudioParameter

/-- `getDefaultValue` with its division checked. -/
def getDefaultValueChecked (p : CamomileAudioParameter) : Option CFloat :=
  CFloat.divChecked ((p.m_default : CFloat) - (p.m_minimum : CFloat))
    ((p.m_maximum : CFloat) - (p.m_minimum : CFloat))

/-- Range constructor with the division of its body checked. -/
def mkRangeChecked (name label : String) (min max def_ : ℚ) (nsteps : ℤ)
    (automatable meta_ : Bool) : Option CamomileAudioParameter :=
  let p : CamomileAudioParameter :=
    { m_value := CFloat.fin 0, m_name := name, m_label := label,
      m_minimum := min, m_maximum := max, m_default := def_, m_nsteps := nsteps,
      m_automatable := automatable, m_meta := meta_, m_elements := [] }
  p.getDefaultValueChecked.map (fun v => { p with m_value := v })

/-- Elements constructor with the division of its body checked. -/
def mkElementsChecked (name label : String) (elems : List String) (def_ : ℤ)
    (automatable meta_ : Bool) : Option CamomileAudioParameter :=
  let p : CamomileAudioParameter :=
    { m_value := CFloat.fin 0, m_name := name, m_label := label,
      m_minimum := 0, m_maximum := ((elems.length : ℤ) - 1 : ℤ), m_default := (def_ : ℤ),
      m_nsteps := (elems.length : ℤ),
      m_automatable := automatable, m_meta := meta_, m_elements := elems }
  p.getDefaultValueChecked.map (fun v => { p with m_value := v })

/-- `setValue` with its division checked. -/
def setValueChecked (p : CamomileAudioParameter) (newValue : CFloat) :
    Option CamomileAudioParameter :=
  if p.isDiscrete then
    (CFloat.divChecked (CFloat.round (newValue * (p.m_maximum : CFloat)))
      (p.m_maximum : CFloat)).map (fun v => { p with m_value := v })
  else
    some { p with m_value := newValue }

/-- `setOriginalScaledValue` with its division checked. -/
def setOriginalScaledValueChecked (p : CamomileAudioParameter) (newValue : CFloat) :
    Option CamomileAudioParameter :=
  (CFloat.divChecked (newValue - (p.m_minimum : CFloat))
    ((p.m_maximum : CFloat) - (p.m_minimum : CFloat))).map (fun v => { p with m_value := v })

/-- `getValueForText` with its division checked. -/
def getValueForTextChecked (getFloatValue : String → CFloat) (p : CamomileAudioParameter)
    (text : String) : Option CFloat :=
  if p.m_elements.isEmpty then
    some (getFloatValue text)
  else
    CFloat.divChecked (CFloat.fin (indexOf p.m_elements text)) (p.m_maximum : CFloat)

end CamomileAudioParameter

/-- Two parameter states agree on everything but the stored value. -/
def SameDescriptor (p q : CamomileAudioParameter) : Prop :=
  p.m_name = q.m_name ∧ p.m_label = q.m_label ∧ p.m_minimum = q.m_minimum ∧
  p.m_maximum = q.m_maximum ∧ p.m_default = q.m_default ∧ p.m_nsteps = q.m_nsteps ∧
  p.m_elements = q.m_elements ∧ p.m_automatable = q.m_automatable ∧ p.m_meta = q.m_meta

/-! ## IEEE-754 binary32 rounding -/

namespace Binary32

/-- Exponent `e` of the binade of a non-zero `x`: `2 ^ e ≤ |x| < 2 ^ (e + 1)`. -/
def binade (x : ℚ) : ℤ :=
  Int.log 2 |x|

/-- Spacing of the binary32 numbers in the binade of `x` (24-bit significand). -/
def ulp (x : ℚ) : ℚ :=
  (2 : ℚ) ^ (binade x - 23)

/-- Nearest integer, halfway cases to the even neighbour. -/
def roundEven (y : ℚ) : ℤ :=
  if y - ⌊y⌋ < 1 / 2 then ⌊y⌋
  else if 1 / 2 < y - ⌊y⌋ then ⌊y⌋ + 1
  else if ⌊y⌋ % 2 = 0 then ⌊y⌋ else ⌊y⌋ + 1

/-- Rounding of a real result to binary32, round-to-nearest-even; the exponent
range is not bounded (no overflow to infinity, no subnormal numbers). -/
def rnd (x : ℚ) : ℚ :=
  if x = 0 then 0 else (roundEven (x / ulp x) : ℚ) * ulp x

end Binary32

/-- Result of a floating-point operation: a finite exact result is rounded to
binary32, a non-finite one is kept. -/
def CFloat.rnd : CFloat → CFloat
  | CFloat.fin q => CFloat.fin (Binary32.rnd q)
  | x => x

namespace Binary32

/-- Float addition. -/
def fadd (a b : CFloat) : CFloat := CFloat.rnd (a + b)

/-- Float subtraction. -/
def fsub (a b : CFloat) : CFloat := CFloat.rnd (a - b)

/-- Float multiplication. -/
def fmul (a b : CFloat) : CFloat := CFloat.rnd (a * b)

/-- Float division. -/
def fdiv (a b : CFloat) : CFloat := CFloat.rnd (a / b)

/-- Conversion of an `int` to `float`. -/
def ofInt (n : ℤ) : ℚ := rnd (n : ℚ)

end Binary32

/-- `getOriginalScaledValue` (lines 50-53), each operation rounded. -/
def Binary32.getOriginalScaledValue (p : CamomileAudioParameter) : CFloat :=
  fadd (fmul p.m_value (fsub (CFloat.fin p.m_maximum) (CFloat.fin p.m_minimum)))
    (CFloat.fin p.m_minimum)

/-- `getDefaultValue` (lines 77-80), each operation rounded. -/
def Binary32.getDefaultValue (p : CamomileAudioParameter) : CFloat :=
  fdiv (fsub (CFloat.fin p.m_default) (CFloat.fin p.m_minimum))
    (fsub (CFloat.fin p.m_maximum) (CFloat.fin p.m_minimum))

/-- Range constructor (lines 15-22) with the rounded `getDefaultValue`. -/
def Binary32.mkRange (name label : String) (min max def_ : ℚ) (nsteps : ℤ)
    (automatable meta_ : Bool) : CamomileAudioParameter :=
  let p : CamomileAudioParameter :=
    { m_value := CFloat.fin 0, m_name := name, m_label := label,
      m_minimum := min, m_maximum := max, m_default := def_, m_nsteps := nsteps,
      m_automatable := automatable, m_meta := meta_, m_elements := [] }
  { p with m_value := getDefaultValue p }

/-- Elements constructor (lines 24-31): `size - 1` and the default index are
`int` values converted to `float`; `m_value` is the rounded `getDefaultValue`. -/
def Binary32.mkElements (name label : String) (elems : List String) (def_ : ℤ)
    (automatable meta_ : Bool) : CamomileAudioParameter :=
  let p : CamomileAudioParameter :=
    { m_value := CFloat.fin 0, m_name := name, m_label := label,
      m_minimum := 0, m_maximum := ofInt ((elems.length : ℤ) - 1), m_default := ofInt def_,
      m_nsteps := (elems.length : ℤ),
      m_automatable := automatable, m_meta := meta_, m_elements := elems }
  { p with m_value := getDefaultValue p }

/-- `setValue` (lines 55-65): the product is rounded before `round` is applied,
and the quotient is rounded. -/
def Binary32.setValue (p : CamomileAudioParameter) (newValue : CFloat) : CamomileAudioParameter :=
  if p.isDiscrete then
    { p with
      m_value :=
        fdiv (CFloat.round (fmul newValue (CFloat.fin p.m_maximum))) (CFloat.fin p.m_maximum) }
  else
    { p with m_value := newValue }

/-- `setOriginalScaledValue` (lines 67-70), each operation rounded. -/
def Binary32.setOriginalScaledValue (p : CamomileAudioParameter) (newValue : CFloat) :
    CamomileAudioParameter :=
  { p with
    m_value :=
      fdiv (fsub newValue (CFloat.fin p.m_minimum))
        (fsub (CFloat.fin p.m_maximum) (CFloat.fin p.m_minimum)) }

/-- Index expression of the enumerated branch of `getText` (lines 100-105):
the argument is clamped to `[0, 1]` (a `NaN` passes both comparisons
unchanged), the rounded product with `m_maximum` is rounded down when
`static_cast<int>(m_maximum)` is odd and up when it is even, and converted to
`int` (`none` when that conversion is undefined). -/
def Binary32.getTextIndex (p : CamomileAudioParameter) (value : CFloat) : Option ℤ :=
  let value := if CFloat.gt value (CFloat.fin 1) then CFloat.fin 1 else value
  let value := if CFloat.lt value (CFloat.fin 0) then CFloat.fin 0 else value
  if (CFloat.truncQ p.m_maximum).tmod 2 ≠ 0 then
    CFloat.toInt (CFloat.floor (fmul value (CFloat.fin p.m_maximum)))
  else
    CFloat.toInt (CFloat.ceil (fmul value (CFloat.fin p.m_maximum)))

/-- `getText` (lines 92-107); `fmt` stands for the JUCE conversion
`String (float)`.  The result is `none` when the index conversion is undefined. -/
def Binary32.getText (fmt : CFloat → String) (p : CamomileAudioParameter) (value : CFloat)
    (maximumStringLength : ℤ) : Option String :=
  if p.m_elements.isEmpty then
    some (substring
      (fmt (fadd (fmul value (fsub (CFloat.fin p.m_maximum) (CFloat.fin p.m_minimum)))
        (CFloat.fin p.m_minimum)))
      0 maximumStringLength)
  else
    (getTextIndex p value).map
      (fun k => substring (elementAt p.m_elements k) 0 maximumStringLength)

/-- `getValueForText` (lines 109-119): the index is converted to `float` and
the quotient is rounded; `getFloatValue` stands for `String::getFloatValue`. -/
def Binary32.getValueForText (getFloatValue : String → CFloat) (p : CamomileAudioParameter)
    (text : String) : CFloat :=
  if p.m_elements.isEmpty then
    getFloatValue text
  else
    fdiv (CFloat.fin (ofInt (indexOf p.m_elements text))) (CFloat.fin p.m_maximum)

/-- The value clamped by lines 100-101 of `getText`, for an argument that is a number. -/
def Binary32.clampUnit : CFloat → ℚ
  | CFloat.fin q => max 0 (min q 1)
  | CFloat.pinf => 1
  | _ => 0

/-- Index that the specification of `getText` selects: with `c` the clamped
value, `floor (c * maximum)` when `int (maximum)` is odd and
`ceil (c * maximum)` when it is even, the product being a float product. -/
def Binary32.specTextIndex (maximum c : ℚ) : ℤ :=
  if (CFloat.truncQ maximum) % 2 = 1 then ⌊rnd (c * maximum)⌋ else ⌈rnd (c * maximum)⌉

/-- Twenty-four labels `e0 … e23`. -/
def Binary32.labels24 : List String :=
  ["e0", "e1", "e2", "e3", "e4", "e5", "e6", "e7", "e8", "e9", "e10", "e11", "e12", "e13",
   "e14", "e15", "e16", "e17", "e18", "e19", "e20", "e21", "e22", "e23"]

/-! ## Arithmetic lemmas -/

namespace CFloat

@[simp] theorem fin_add_fin (a b : ℚ) : (fin a + fin b : CFloat) = fin (a + b) := rfl

@[simp] theorem fin_sub_fin (a b : ℚ) : (fin a - fin b : CFloat) = fin (a - b) := by
  show add (fin a) (neg (fin b)) = fin (a - b)
  simp [add, neg, sub_eq_add_neg]

@[simp] theorem fin_mul_fin (a b : ℚ) : (fin a * fin b : CFloat) = fin (a * b) := rfl

theorem fin_div_fin (a : ℚ) {b : ℚ} (hb : b ≠ 0) : (fin a / fin b : CFloat) = fin (a / b) := by
  show div (fin a) (fin b) = fin (a / b)
  simp [div, hb]

theorem fin_div_fin_eq (a b : ℚ) :
    (fin a / fin b : CFloat) = if b = 0 then ofSign a else fin (a / b) := rfl

theorem fin_div_zero (a : ℚ) : (fin a / fin 0 : CFloat) = ofSign a := by
  show div (fin a) (fin 0) = ofSign a
  simp [div]

/-- The rounded value is within one half of the argument. -/
theorem roundQ_abs_sub_le (x : ℚ) : |(roundQ x : ℚ) - x| ≤ 1 / 2 := by
  unfold roundQ
  split_ifs with h
  · have h1 := Int.floor_le (x + 1 / 2)
    have h2 := Int.lt_floor_add_one (x + 1 / 2)
    rw [abs_le]; constructor <;> linarith
  · have h1 := Int.le_ceil (x - 1 / 2)
    have h2 := Int.ceil_lt_add_one (x - 1 / 2)
    rw [abs_le]; constructor <;> linarith

/-- In a halfway case the rounded value is the one farther from zero. -/
theorem roundQ_tie_away (x : ℚ) (ht : |(roundQ x : ℚ) - x| = 1 / 2) : |x| < |(roundQ x : ℚ)| := by
  unfold roundQ at ht ⊢
  split_ifs at ht ⊢ with h
  · have h2 := Int.lt_floor_add_one (x + 1 / 2)
    have h3 : x - 1 / 2 < (⌊x + 1 / 2⌋ : ℚ) := by linarith
    have h4 : (⌊x + 1 / 2⌋ : ℚ) - x = 1 / 2 := by
      rcases abs_eq (by norm_num : (0 : ℚ) ≤ 1 / 2) |>.mp ht with e | e
      · exact e
      · linarith
    rw [abs_of_nonneg h, abs_of_nonneg (by linarith)]
    linarith
  · push_neg at h
    have h2 := Int.ceil_lt_add_one (x - 1 / 2)
    have h4 : (⌈x - 1 / 2⌉ : ℚ) - x = -(1 / 2) := by
      rcases abs_eq (by norm_num : (0 : ℚ) ≤ 1 / 2) |>.mp ht with e | e
      · linarith
      · exact e
    rw [abs_of_neg h, abs_of_neg (by linarith)]
    linarith

/-- Rounding is monotone. -/
theorem roundQ_mono {a b : ℚ} (hab : a ≤ b) : roundQ a ≤ roundQ b := by
  unfold roundQ
  split_ifs with ha hb hb
  · exact Int.floor_le_floor (by linarith)
  · exact absurd (le_trans ha hab) hb
  · push_neg at ha
    have h1 : ⌈a - 1 / 2⌉ ≤ 0 := Int.ceil_le.mpr (by push_cast; linarith)
    have h2 : 0 ≤ ⌊b + 1 / 2⌋ := Int.le_floor.mpr (by push_cast; linarith)
    exact le_trans h1 h2
  · exact Int.ceil_le_ceil (by linarith)

/-- Rounding fixes the integers. -/
theorem roundQ_intCast (k : ℤ) : roundQ (k : ℚ) = k := by
  unfold roundQ
  split_ifs with h
  · rw [Int.floor_eq_iff]; constructor <;> linarith
  · rw [Int.ceil_eq_iff]; constructor <;> linarith

theorem truncQ_intCast (k : ℤ) : truncQ (k : ℚ) = k := by
  unfold truncQ
  split_ifs <;> simp

end CFloat

/-! ## Label lookup -/

/-- The inverse affine map sends every point between `a` and `b` into `[0, 1]`. -/
theorem affine_mem_unit (a b x : ℚ) (h : a ≠ b) (hx : Between a b x) :
    0 ≤ (x - a) / (b - a) ∧ (x - a) / (b - a) ≤ 1 := by
  rcases hx with ⟨h1, h2⟩ | ⟨h1, h2⟩
  · have hab : a < b := lt_of_le_of_ne (le_trans h1 h2) h
    have hd : 0 < b - a := sub_pos.mpr hab
    exact ⟨div_nonneg (by linarith) hd.le, (div_le_one hd).mpr (by linarith)⟩
  · have hab : b < a := lt_of_le_of_ne (le_trans h1 h2) (Ne.symm h)
    have hd : b - a < 0 := sub_neg.mpr hab
    exact ⟨div_nonneg_of_nonpos (by linarith) hd.le, (div_le_one_of_neg hd).mpr (by linarith)⟩

/-- Quantising a value of `[0, 1]` against a maximum that is not zero and whose
rounding does not exceed it in magnitude stays in `[0, 1]`. -/
theorem quantised_mem_unit (m v : ℚ) (hm : m ≠ 0) (hr : |(CFloat.roundQ m : ℚ)| ≤ |m|)
    (h0 : 0 ≤ v) (h1 : v ≤ 1) :
    0 ≤ (CFloat.roundQ (v * m) : ℚ) / m ∧ (CFloat.roundQ (v * m) : ℚ) / m ≤ 1 := by
  have hz : CFloat.roundQ 0 = 0 := by simpa using CFloat.roundQ_intCast 0
  rcases lt_or_gt_of_ne hm with hneg | hpos
  · have ha : m ≤ v * m := by nlinarith
    have hb : v * m ≤ 0 := mul_nonpos_of_nonneg_of_nonpos h0 hneg.le
    have h2 : (CFloat.roundQ m : ℚ) ≤ CFloat.roundQ (v * m) := by
      exact_mod_cast CFloat.roundQ_mono ha
    have h3 : (CFloat.roundQ (v * m) : ℚ) ≤ 0 := by
      have := CFloat.roundQ_mono hb
      rw [hz] at this
      exact_mod_cast this
    have h4 : (CFloat.roundQ m : ℚ) ≤ 0 := le_trans h2 h3
    rw [abs_of_nonpos h4, abs_of_neg hneg] at hr
    exact ⟨div_nonneg_of_nonpos h3 hneg.le, (div_le_one_of_neg hneg).mpr (by linarith)⟩
  · have ha : v * m ≤ m := by nlinarith
    have hb : 0 ≤ v * m := mul_nonneg h0 hpos.le
    have h2 : (CFloat.roundQ (v * m) : ℚ) ≤ CFloat.roundQ m := by
      exact_mod_cast CFloat.roundQ_mono ha
    have h3 : (0 : ℚ) ≤ CFloat.roundQ (v * m) := by
      have := CFloat.roundQ_mono hb
      rw [hz] at this
      exact_mod_cast this
    have h4 : (0 : ℚ) ≤ CFloat.roundQ m := le_trans h3 h2
    rw [abs_of_nonneg h4, abs_of_pos hpos] at hr
    exact ⟨div_nonneg h3 hpos.le, (div_le_one hpos).mpr (by linarith)⟩

/-- A call leaves range and step count as they are. -/
theorem ValueCall.apply_fields (p : CamomileAudioParameter) (c : ValueCall) :
    (ValueCall.apply p c).m_minimum = p.m_minimum ∧
    (ValueCall.apply p c).m_maximum = p.m_maximum ∧
    (ValueCall.apply p c).m_nsteps = p.m_nsteps := by
  cases c with
  | setValue v =>
    by_cases hd : p.isDiscrete = true
    · simp [ValueCall.apply, CamomileAudioParameter.setValue, hd]
    · simp [ValueCall.apply, CamomileAudioParameter.setValue, hd]
  | setOriginalScaledValue x => exact ⟨rfl, rfl, rfl⟩

/-- One in-range call stores a normalized value, whatever was stored before;
the condition on the maximum is needed for `setValue` only. -/
theorem ValueCall.apply_normalized (p : CamomileAudioParameter) (c : ValueCall)
    (hne : p.m_minimum ≠ p.m_maximum)
    (hq : (∃ v, c = ValueCall.setValue v) → p.isDiscrete = false ∨
      (p.m_maximum ≠ 0 ∧ |(CFloat.roundQ p.m_maximum : ℚ)| ≤ |p.m_maximum|))
    (hc : ValueCall.InRange p c) : Normalized (ValueCall.apply p c).getValue := by
  cases c with
  | setValue v =>
    by_cases hd : p.isDiscrete = true
    · rcases hq ⟨v, rfl⟩ with hq | ⟨hm, hr⟩
      · rw [hq] at hd
        exact absurd hd (by decide)
      · have := quantised_mem_unit p.m_maximum v hm hr hc.1 hc.2
        simpa [ValueCall.apply, CamomileAudioParameter.setValue, hd,
          CamomileAudioParameter.getValue, CFloat.round, CFloat.fin_div_fin _ hm,
          Normalized] using this
    · have : Normalized (CFloat.fin v) := hc
      simpa [ValueCall.apply, CamomileAudioParameter.setValue, hd,
        CamomileAudioParameter.getValue] using this
  | setOriginalScaledValue x =>
    have hd : p.m_maximum - p.m_minimum ≠ 0 := sub_ne_zero.mpr (Ne.symm hne)
    have := affine_mem_unit p.m_minimum p.m_maximum x hne hc
    simpa [ValueCall.apply, CamomileAudioParameter.setOriginalScaledValue,
      CamomileAudioParameter.getValue, CFloat.fin_div_fin _ hd, Normalized] using this

/-- In-range calls keep a normalized value normalized; the condition on the
maximum is needed only when the sequence contains a `setValue`. -/
theorem runCalls_normalized (calls : List ValueCall) (p : CamomileAudioParameter)
    (hne : p.m_minimum ≠ p.m_maximum)
    (hq : (∃ v, ValueCall.setValue v ∈ calls) → p.isDiscrete = false ∨
      (p.m_maximum ≠ 0 ∧ |(CFloat.roundQ p.m_maximum : ℚ)| ≤ |p.m_maximum|))
    (hp : Normalized p.getValue)
    (hcalls : ∀ c ∈ calls, ValueCall.InRange p c) : Normalized (runCalls p calls).getValue := by
  induction calls generalizing p with
  | nil => exact hp
  | cons c rest ih =>
    have hf := ValueCall.apply_fields p c
    have hdisc : (ValueCall.apply p c).isDiscrete = p.isDiscrete := by
      simp [CamomileAudioParameter.isDiscrete, hf.2.2]
    have hstep := ValueCall.apply_normalized p c hne
      (fun ⟨v, hv⟩ => hq ⟨v, hv ▸ List.mem_cons_self _ _⟩) (hcalls c (List.mem_cons_self _ _))
    show Normalized (runCalls (ValueCall.apply p c) rest).getValue
    apply ih
    · rw [hf.1, hf.2.1]; exact hne
    · rw [hdisc, hf.2.1]
      exact fun ⟨v, hv⟩ => hq ⟨v, List.mem_cons_of_mem _ hv⟩
    · exact hstep
    · intro d hd
      have := hcalls d (List.mem_cons_of_mem _ hd)
      cases d with
      | setValue v => exact this
      | setOriginalScaledValue x =>
        show Between _ _ x
        rw [hf.1, hf.2.1]
        exact this

/-! ## The snapshot -/

namespace XmlElement

end XmlElement

namespace CamomileAudioParameter

end CamomileAudioParameter

/-! ## Label lookup (C4, C5) -/

namespace CamomileAudioParameter

end CamomileAudioParameter

/-! ## Normalized value (C8) -/

namespace CamomileAudioParameter

/-- C8 (amended): a parameter constructed by either constructor with
`minimum ≠ maximum` and a default between the two stores a normalized value,
and the stored value is normalized after every sequence of
`setOriginalScaledValue (x)` with `x` between minimum and maximum and
`setValue (v)` with `0 ≤ v ≤ 1`, provided that, when the sequence contains a
`setValue`, the parameter is continuous or its maximum is not zero and is not
exceeded in magnitude by its rounding (as for every parameter built from at
least two labels). -/
theorem value_normalized (name label : String) (min max def_ : ℚ) (nsteps idx : ℤ)
    (elems : List String) (automatable meta_ : Bool) :
    (min ≠ max → Between min max def_ →
      Normalized (mkRange name label min max def_ nsteps automatable meta_).getValue ∧
      ∀ calls : List ValueCall,
        (∀ c ∈ calls,
          ValueCall.InRange (mkRange name label min max def_ nsteps automatable meta_) c) →
        ((∃ v, ValueCall.setValue v ∈ calls) →
          (mkRange name label min max def_ nsteps automatable meta_).isDiscrete = false ∨
          (max ≠ 0 ∧ |(CFloat.roundQ max : ℚ)| ≤ |max|)) →
        Normalized
          (runCalls (mkRange name label min max def_ nsteps automatable meta_) calls).getValue) ∧
    (2 ≤ elems.length → 0 ≤ idx → idx ≤ (elems.length : ℤ) - 1 →
      Normalized (mkElements name label elems idx automatable meta_).getValue ∧
      ∀ calls : List ValueCall,
        (∀ c ∈ calls,
          ValueCall.InRange (mkElements name label elems idx automatable meta_) c) →
        Normalized
          (runCalls (mkElements name label elems idx automatable meta_) calls).getValue) := by
  constructor
  · intro hne hdef
    have hd : max - min ≠ 0 := sub_ne_zero.mpr (Ne.symm hne)
    have hinit : Normalized
        (mkRange name label min max def_ nsteps automatable meta_).getValue := by
      have := affine_mem_unit min max def_ hne hdef
      simpa [mkRange, getValue, getDefaultValue, CFloat.fin_div_fin _ hd, Normalized] using this
    exact ⟨hinit, fun calls hcalls hq => runCalls_normalized calls _ hne hq hinit hcalls⟩
  · intro hN h0 h1
    have h2 : (2 : ℚ) ≤ elems.length := by exact_mod_cast hN
    have hM : (((elems.length : ℤ) - 1 : ℤ) : ℚ) ≠ 0 := by
      push_cast
      intro h
      linarith
    have hne : (mkElements name label elems idx automatable meta_).m_minimum
        ≠ (mkElements name label elems idx automatable meta_).m_maximum := fun h => hM h.symm
    have hb : Between 0 (((elems.length : ℤ) - 1 : ℤ) : ℚ) (idx : ℚ) :=
      Or.inl ⟨by exact_mod_cast h0, by exact_mod_cast h1⟩
    have hd : (elems.length : ℚ) - 1 ≠ 0 := by
      intro h
      linarith
    have hinit : Normalized (mkElements name label elems idx automatable meta_).getValue := by
      have := affine_mem_unit 0 _ (idx : ℚ) (fun h => hM h.symm) hb
      simpa [mkElements, getValue, getDefaultValue, CFloat.fin_div_fin _ hd, Normalized]
        using this
    refine ⟨hinit, fun calls hcalls => runCalls_normalized calls _ hne (fun _ => Or.inr ⟨hM, ?_⟩)
      hinit hcalls⟩
    show |((CFloat.roundQ (((elems.length : ℤ) - 1 : ℤ) : ℚ) : ℤ) : ℚ)|
      ≤ |(((elems.length : ℤ) - 1 : ℤ) : ℚ)|
    rw [CFloat.roundQ_intCast]

/-- Witness of C8 (amended): three steps over `[0, 2]` after `setValue (1/4)`
and `setOriginalScaledValue (3/2)`; two steps over `[0, 3/2]`, where the
condition on the maximum fails, after `setOriginalScaledValue (1)` alone; and
the labels `Low, Mid, High` after `setValue (1/4)`. -/
theorem value_normalized_witness :
    Normalized (runCalls (mkRange "mode" "" 0 2 1 3 true false)
      [ValueCall.setValue (1 / 4), ValueCall.setOriginalScaledValue (3 / 2)]).getValue ∧
    Normalized (runCalls (mkRange "steps" "" 0 (3 / 2) 0 2 true false)
      [ValueCall.setOriginalScaledValue 1]).getValue ∧
    Normalized (runCalls (mkElements "mode" "" ["Low", "Mid", "High"] 1 true false)
      [ValueCall.setValue (1 / 4)]).getValue :=
  ⟨((value_normalized "mode" "" 0 2 1 3 1 ["Low", "Mid", "High"] true false).1 (by norm_num)
      (Or.inl ⟨by norm_num, by norm_num⟩)).2 _
      (by
        intro c hc
        simp only [List.mem_cons, List.mem_singleton, List.not_mem_nil, or_false] at hc
        rcases hc with rfl | rfl
        · exact ⟨by norm_num, by norm_num⟩
        · exact Or.inl ⟨by norm_num [mkRange], by norm_num [mkRange]⟩)
      (fun _ => Or.inr ⟨by norm_num, by
        rw [show (2 : ℚ) = ((2 : ℤ) : ℚ) by norm_num, CFloat.roundQ_intCast]⟩),
   ((value_normalized "steps" "" 0 (3 / 2) 0 2 1 ["Low", "Mid", "High"] true false).1
      (by norm_num) (Or.inl ⟨by norm_num, by norm_num⟩)).2 _
      (by
        intro c hc
        simp only [List.mem_singleton] at hc
        rw [hc]
        exact Or.inl ⟨by norm_num [mkRange], by norm_num [mkRange]⟩)
      (by
        rintro ⟨v, hv⟩
        simp at hv),
   ((value_normalized "mode" "" 0 2 1 3 1 ["Low", "Mid", "High"] true false).2 (by decide)
      (by norm_num) (by decide)).2 _
      (by
        intro c hc
        simp only [List.mem_singleton] at hc
        rw [hc]
        exact ⟨by norm_num, by norm_num⟩)⟩

/-- C8 fails as stated: (1) two steps over `[0, 3/2]`, default `0`:
`setValue (1)` stores `round (3/2) / (3/2) = 4/3 > 1`; (2) two steps over
`[-1, 0]`, default `-1`: `setValue (1/2)` stores `round (0) / 0`, not a number. -/
theorem value_normalized_counterexample :
    ((0 : ℚ) ≠ 3 / 2 ∧ Between 0 (3 / 2) 0 ∧
      ValueCall.InRange (mkRange "steps" "" 0 (3 / 2) 0 2 true false) (ValueCall.setValue 1) ∧
      (runCalls (mkRange "steps" "" 0 (3 / 2) 0 2 true false) [ValueCall.setValue 1]).getValue
        = CFloat.fin (4 / 3) ∧
      ¬ Normalized (runCalls (mkRange "steps" "" 0 (3 / 2) 0 2 true false)
        [ValueCall.setValue 1]).getValue) ∧
    ((-1 : ℚ) ≠ 0 ∧ Between (-1) 0 (-1) ∧
      ValueCall.InRange (mkRange "steps" "" (-1) 0 (-1) 2 true false)
        (ValueCall.setValue (1 / 2)) ∧
      (runCalls (mkRange "steps" "" (-1) 0 (-1) 2 true false)
        [ValueCall.setValue (1 / 2)]).getValue = CFloat.nan ∧
      ¬ Normalized (runCalls (mkRange "steps" "" (-1) 0 (-1) 2 true false)
        [ValueCall.setValue (1 / 2)]).getValue) := by
  have hr : CFloat.roundQ (3 / 2) = 2 := by
    simp only [CFloat.roundQ]
    norm_num
  have hz : CFloat.roundQ 0 = 0 := by simpa using CFloat.roundQ_intCast 0
  have h1 : (runCalls (mkRange "steps" "" 0 (3 / 2) 0 2 true false)
      [ValueCall.setValue 1]).getValue = CFloat.fin (4 / 3) := by
    have hd : (mkRange "steps" "" 0 (3 / 2) 0 2 true false).isDiscrete = true := by
      norm_num [mkRange, isDiscrete]
    simp only [runCalls, List.foldl, ValueCall.apply, setValue, hd, if_true, getValue]
    simp only [mkRange, CFloat.fin_mul_fin, CFloat.round, one_mul, hr]
    rw [CFloat.fin_div_fin _ (by norm_num)]
    norm_num
  have h2 : (runCalls (mkRange "steps" "" (-1) 0 (-1) 2 true false)
      [ValueCall.setValue (1 / 2)]).getValue = CFloat.nan := by
    have hd : (mkRange "steps" "" (-1) 0 (-1) 2 true false).isDiscrete = true := by
      norm_num [mkRange, isDiscrete]
    simp only [runCalls, List.foldl, ValueCall.apply, setValue, hd, if_true, getValue]
    simp only [mkRange, CFloat.fin_mul_fin, CFloat.round, mul_zero, hz, Int.cast_zero,
      CFloat.fin_div_zero]
    simp [CFloat.ofSign]
  refine ⟨⟨by norm_num, Or.inl ⟨le_refl _, by norm_num⟩, ⟨by norm_num, le_refl _⟩, h1, ?_⟩,
    ⟨by norm_num, Or.inl ⟨le_refl _, by norm_num⟩, ⟨by norm_num, by norm_num⟩, h2, ?_⟩⟩
  · rw [h1]
    intro h
    have := h.2
    norm_num at this
  · rw [h2]
    exact fun h => h

end CamomileAudioParameter

/-! ## Save and load (C7) -/

namespace CamomileAudioParameter

/-- C12: without a `list` key, `parse` builds the range variant: each of
minimum, maximum, default, step count, automatable and meta is the accessor
applied to the tokens of its key when the key is present, and otherwise
`0`, `1`, the resolved minimum, `0`, `true`, `false`; the empty option map
gives the continuous parameter over `[0, 1]` with default and value `0`. -/
theorem parse_range (P : CamomileParser) (definition : String)
    (hlist : (P.getOptions definition).count "list" = 0) :
    ((parse P definition).m_elements = [] ∧
      (parse P definition).m_minimum
        = (if (P.getOptions definition).count "min" ≠ 0
            then P.getFloat ((P.getOptions definition).get "min") else 0) ∧
      (parse P definition).m_maximum
        = (if (P.getOptions definition).count "max" ≠ 0
            then P.getFloat ((P.getOptions definition).get "max") else 1) ∧
      (parse P definition).m_default
        = (if (P.getOptions definition).count "default" ≠ 0
            then P.getFloat ((P.getOptions definition).get "default")
            else (parse P definition).m_minimum) ∧
      (parse P definition).m_nsteps
        = (if (P.getOptions definition).count "nsteps" ≠ 0
            then P.getInteger ((P.getOptions definition).get "nsteps") else 0) ∧
      (parse P definition).isAutomatable
        = (if (P.getOptions definition).count "auto" ≠ 0
            then P.getBool ((P.getOptions definition).get "auto") else true) ∧
      (parse P definition).isMetaParameter
        = (if (P.getOptions definition).count "meta" ≠ 0
            then P.getBool ((P.getOptions definition).get "meta") else false) ∧
      (parse P definition).getValue = (parse P definition).getDefaultValue) ∧
    (P.getOptions definition = [] →
      (parse P definition).m_minimum = 0 ∧ (parse P definition).m_maximum = 1 ∧
      (parse P definition).m_default = 0 ∧ (parse P definition).m_nsteps = 0 ∧
      (parse P definition).isDiscrete = false ∧ (parse P definition).isAutomatable = true ∧
      (parse P definition).isMetaParameter = false ∧
      (parse P definition).getValue = CFloat.fin 0) := by
  have hp : parse P definition
      = mkRange
          (if (P.getOptions definition).count "name" ≠ 0
            then P.getString ((P.getOptions definition).get "name") else "")
          (if (P.getOptions definition).count "min" ≠ 0
            then P.getString ((P.getOptions definition).get "label") else "")
          (if (P.getOptions definition).count "min" ≠ 0
            then P.getFloat ((P.getOptions definition).get "min") else 0)
          (if (P.getOptions definition).count "max" ≠ 0
            then P.getFloat ((P.getOptions definition).get "max") else 1)
          (if (P.getOptions definition).count "default" ≠ 0
            then P.getFloat ((P.getOptions definition).get "default")
            else (if (P.getOptions definition).count "min" ≠ 0
              then P.getFloat ((P.getOptions definition).get "min") else 0))
          (if (P.getOptions definition).count "nsteps" ≠ 0
            then P.getInteger ((P.getOptions definition).get "nsteps") else 0)
          (if (P.getOptions definition).count "auto" ≠ 0
            then P.getBool ((P.getOptions definition).get "auto") else true)
          (if (P.getOptions definition).count "meta" ≠ 0
            then P.getBool ((P.getOptions definition).get "meta") else false) := by
    simp only [parse, hlist, ne_eq, not_true_eq_false, if_false]
  constructor
  · rw [hp]
    exact ⟨rfl, rfl, rfl, rfl, rfl, rfl, rfl, rfl⟩
  · intro hempty
    rw [hp, hempty]
    refine ⟨rfl, rfl, rfl, rfl, ?_, rfl, rfl, ?_⟩
    · simp [mkRange, isDiscrete, Options.count]
    · simp [mkRange, getValue, getDefaultValue, Options.count, CFloat.fin_div_fin_eq]

/-- Witness of C12: the empty option map. -/
theorem parse_range_witness :
    (parse (fixedParser [] "") "").m_minimum = 0 ∧ (parse (fixedParser [] "") "").m_maximum = 1 ∧
    (parse (fixedParser [] "") "").m_default = 0 ∧ (parse (fixedParser [] "") "").m_nsteps = 0 ∧
    (parse (fixedParser [] "") "").isDiscrete = false ∧
    (parse (fixedParser [] "") "").isAutomatable = true ∧
    (parse (fixedParser [] "") "").isMetaParameter = false ∧
    (parse (fixedParser [] "") "").getValue = CFloat.fin 0 :=
  (parse_range (fixedParser [] "") "" (by decide)).2 rfl

/-- C13: the label of the parsed parameter is empty when the `min` key is
absent, whether or not a `label` key is present, and is `getString` of the
`label` tokens when the `min` key is present; the `label` key is not counted. -/
theorem parse_label (P : CamomileParser) (definition : String) :
    ((P.getOptions definition).count "min" = 0 → (parse P definition).getLabel = "") ∧
    ((P.getOptions definition).count "min" ≠ 0 →
      (parse P definition).getLabel = P.getString ((P.getOptions definition).get "label")) := by
  constructor
  · intro h
    by_cases hl : (P.getOptions definition).count "list" ≠ 0
    · simp [parse, h, hl, getLabel, mkElements]
    · simp [parse, h, hl, getLabel, mkRange]
  · intro h
    by_cases hl : (P.getOptions definition).count "list" ≠ 0
    · simp [parse, h, hl, getLabel, mkElements]
    · simp [parse, h, hl, getLabel, mkRange]

/-- Witness of C13: a `label` key without `min` gives the empty label; with
`min` it gives the label. -/
theorem parse_label_witness :
    (parse (fixedParser [("label", ["Hz"])] "") "").getLabel = "" ∧
    (parse (fixedParser [("min", ["0"]), ("label", ["Hz"])] "") "").getLabel
      = (fixedParser [("min", ["0"]), ("label", ["Hz"])] "").getString
          (Options.get [("min", ["0"]), ("label", ["Hz"])] "label") :=
  ⟨(parse_label (fixedParser [("label", ["Hz"])] "") "").1 (by decide),
   (parse_label (fixedParser [("min", ["0"]), ("label", ["Hz"])] "") "").2 (by decide)⟩

/-- C14 at the failing input: the option map has a `min` key and no `label`
key, and the label of the parsed parameter is whatever `getString` returns
for the token list of the absent `label` key. -/
theorem parse_label_reads_absent_key :
    Options.count [("min", ["0"])] "label" = 0 ∧
    (parse (fixedParser [("min", ["0"])] "") "").getLabel = "" ∧
    (parse (fixedParser [("min", ["0"])] "unit") "").getLabel = "unit" := by
  refine ⟨by decide, by decide, by decide⟩

/-- C15: for a non-empty label list of size `N` (an `int`), the elements
constructor sets minimum `0`, maximum `N - 1`, step count `N` and default the
given index; the parameter is discrete, has `N` steps and is not inverted. -/
theorem mkElements_descriptor (name label : String) (elems : List String) (idx : ℤ)
    (automatable meta_ : Bool) (dflt : ℤ) (hne : elems ≠ []) (hint : elems.length < 2 ^ 31) :
    (mkElements name label elems idx automatable meta_).m_minimum = 0 ∧
    (mkElements name label elems idx automatable meta_).m_maximum = (elems.length : ℚ) - 1 ∧
    (mkElements name label elems idx automatable meta_).m_nsteps = elems.length ∧
    (mkElements name label elems idx automatable meta_).m_default = idx ∧
    (mkElements name label elems idx automatable meta_).isDiscrete = true ∧
    (mkElements name label elems idx automatable meta_).getNumSteps dflt = elems.length ∧
    (mkElements name label elems idx automatable meta_).isOrientationInverted = false := by
  have hpos : 0 < elems.length := List.length_pos.mpr hne
  have hq : ((elems.length : ℤ) : ℚ) < 10 ^ 37 := by
    have : ((elems.length : ℤ) : ℚ) < 2 ^ 31 := by exact_mod_cast hint
    linarith [show (2 : ℚ) ^ 31 < 10 ^ 37 by norm_num]
  have hd : (mkElements name label elems idx automatable meta_).isDiscrete = true := by
    simp only [isDiscrete, mkElements, Bool.and_eq_true, decide_eq_true_eq]
    exact ⟨by exact_mod_cast hpos, hq⟩
  have hn : (mkElements name label elems idx automatable meta_).getNumSteps dflt
      = elems.length := by
    unfold getNumSteps
    rw [hd]
    rfl
  refine ⟨rfl, by simp [mkElements], rfl, rfl, hd, hn, ?_⟩
  have h1 : (1 : ℚ) ≤ elems.length := by exact_mod_cast hpos
  simp only [isOrientationInverted, mkElements, decide_eq_false_iff_not, not_lt]
  push_cast
  linarith

/-- Witness of C15: the labels `Low, Mid, High`. -/
theorem mkElements_descriptor_witness :
    (mkElements "mode" "" ["Low", "Mid", "High"] 1 true false).isDiscrete = true ∧
    (mkElements "mode" "" ["Low", "Mid", "High"] 1 true false).getNumSteps 2147483647
      = (["Low", "Mid", "High"].length : ℤ) ∧
    (mkElements "mode" "" ["Low", "Mid", "High"] 1 true false).isOrientationInverted = false :=
  (mkElements_descriptor "mode" "" ["Low", "Mid", "High"] 1 true false 2147483647 (by decide)
    (by decide)).2.2.2.2

end CamomileAudioParameter

/-! ## Frame and divisions (C16, C20) -/

theorem sameDescriptor_refl (p : CamomileAudioParameter) : SameDescriptor p p :=
  ⟨rfl, rfl, rfl, rfl, rfl, rfl, rfl, rfl, rfl⟩

namespace CamomileAudioParameter

/-- `setValue` writes `m_value` only. -/
theorem setValue_sameDescriptor (p : CamomileAudioParameter) (v : CFloat) :
    SameDescriptor (p.setValue v) p := by
  unfold setValue
  split_ifs <;> exact ⟨rfl, rfl, rfl, rfl, rfl, rfl, rfl, rfl, rfl⟩

end CamomileAudioParameter

/-- The load loop writes `m_value` only, position by position. -/
theorem loadLoop_sameDescriptor (params : XmlElement) (ps : List CamomileAudioParameter)
    (i : ℕ) : List.Forall₂ SameDescriptor (loadLoop params ps i) ps := by
  induction ps generalizing i with
  | nil => exact List.Forall₂.nil
  | cons p rest ih =>
    exact List.Forall₂.cons (CamomileAudioParameter.setValue_sameDescriptor p _) (ih (i + 1))

namespace CFloat

theorem divChecked_fin (a : CFloat) {b : ℚ} (hb : b ≠ 0) :
    divChecked a (fin b) = some (a / fin b) := by
  unfold divChecked
  rw [if_neg]
  intro h
  exact hb (CFloat.fin.inj h)

end CFloat

namespace CamomileAudioParameter

/-- C16: `setValue`, `setOriginalScaledValue` and `loadStateInformation` leave
name, label, minimum, maximum, default, step count, elements, automatable and
meta as they were, for every parameter, list, container and argument. -/
theorem value_is_sole_mutable_field (p : CamomileAudioParameter) (v : CFloat)
    (xml : XmlElement) (ps : List CamomileAudioParameter) :
    SameDescriptor (p.setValue v) p ∧ SameDescriptor (p.setOriginalScaledValue v) p ∧
    List.Forall₂ SameDescriptor (loadStateInformation xml ps) ps := by
  refine ⟨setValue_sameDescriptor p v, ⟨rfl, rfl, rfl, rfl, rfl, rfl, rfl, rfl, rfl⟩, ?_⟩
  unfold loadStateInformation
  cases xml.getChildByName "params" with
  | none => exact List.forall₂_same.mpr (fun q _ => sameDescriptor_refl q)
  | some params => exact loadLoop_sameDescriptor params ps 0

/-- C20: under `minimum ≠ maximum` and `maximum ≠ 0` every division of
`getDefaultValue`, `setOriginalScaledValue`, `setValue`, `getValueForText` and
of the constructors has a non-zero divisor (the checked operation succeeds
with the result of the operation itself); a label list of at least 2 elements
meets the precondition, a list of exactly 1 element has
`minimum = maximum = 0` and its constructor divides by zero. -/
theorem divisions_defined (p : CamomileAudioParameter) (v : CFloat)
    (getFloatValue : String → CFloat) (text name label : String) (min max def_ : ℚ)
    (nsteps idx : ℤ) (elems : List String) (automatable meta_ : Bool) :
    (p.m_minimum ≠ p.m_maximum → p.m_maximum ≠ 0 →
      p.getDefaultValueChecked = some p.getDefaultValue ∧
      p.setOriginalScaledValueChecked v = some (p.setOriginalScaledValue v) ∧
      p.setValueChecked v = some (p.setValue v) ∧
      getValueForTextChecked getFloatValue p text = some (getValueForText getFloatValue p text)) ∧
    (min ≠ max → max ≠ 0 →
      mkRangeChecked name label min max def_ nsteps automatable meta_
        = some (mkRange name label min max def_ nsteps automatable meta_)) ∧
    (2 ≤ elems.length →
      (mkElements name label elems idx automatable meta_).m_minimum
        ≠ (mkElements name label elems idx automatable meta_).m_maximum ∧
      (mkElements name label elems idx automatable meta_).m_maximum ≠ 0 ∧
      mkElementsChecked name label elems idx automatable meta_
        = some (mkElements name label elems idx automatable meta_)) ∧
    (elems.length = 1 →
      (mkElements name label elems idx automatable meta_).m_minimum = 0 ∧
      (mkElements name label elems idx automatable meta_).m_maximum = 0 ∧
      mkElementsChecked name label elems idx automatable meta_ = none) := by
  refine ⟨?_, ?_, ?_, ?_⟩
  · intro hne hmax
    have hd : p.m_maximum - p.m_minimum ≠ 0 := sub_ne_zero.mpr (Ne.symm hne)
    refine ⟨?_, ?_, ?_, ?_⟩
    · simp only [getDefaultValueChecked, getDefaultValue, CFloat.fin_sub_fin,
        CFloat.divChecked_fin _ hd]
    · simp only [setOriginalScaledValueChecked, setOriginalScaledValue, CFloat.fin_sub_fin,
        CFloat.divChecked_fin _ hd, Option.map_some']
    · unfold setValueChecked setValue
      split_ifs
      · simp only [CFloat.divChecked_fin _ hmax, Option.map_some']
      · rfl
    · unfold getValueForTextChecked getValueForText
      split_ifs
      · rfl
      · exact CFloat.divChecked_fin _ hmax
  · intro hne _
    have hd : max - min ≠ 0 := sub_ne_zero.mpr (Ne.symm hne)
    simp only [mkRangeChecked, mkRange, getDefaultValueChecked, getDefaultValue,
      CFloat.fin_sub_fin, CFloat.divChecked_fin _ hd, Option.map_some']
  · intro hN
    have h2 : (2 : ℚ) ≤ elems.length := by exact_mod_cast hN
    have hM : (((elems.length : ℤ) - 1 : ℤ) : ℚ) ≠ 0 := by
      push_cast
      intro h0
      linarith
    have hd : (((elems.length : ℤ) - 1 : ℤ) : ℚ) - 0 ≠ 0 := by rwa [sub_zero]
    refine ⟨fun h => hM h.symm, hM, ?_⟩
    simp only [mkElementsChecked, mkElements, getDefaultValueChecked, getDefaultValue,
      CFloat.fin_sub_fin, CFloat.divChecked_fin _ hd, Option.map_some']
  · intro h1
    have hM : (((elems.length : ℤ) - 1 : ℤ) : ℚ) = 0 := by
      rw [h1]
      norm_num
    refine ⟨rfl, hM, ?_⟩
    simp only [mkElementsChecked, getDefaultValueChecked, CFloat.fin_sub_fin, hM, sub_zero,
      CFloat.divChecked, if_true, Option.map_none']

/-- Witness of C20: three labels meet the precondition and are constructed
without a division by zero; one label is not. -/
theorem divisions_defined_witness :
    mkElementsChecked "mode" "" ["Low", "Mid", "High"] 1 true false
        = some (mkElements "mode" "" ["Low", "Mid", "High"] 1 true false) ∧
    mkElementsChecked "mode" "" ["Only"] 0 true false = none ∧
    (mkElements "mode" "" ["Low", "Mid", "High"] 1 true false).setValueChecked (CFloat.fin (1 / 2))
      = some ((mkElements "mode" "" ["Low", "Mid", "High"] 1 true false).setValue
          (CFloat.fin (1 / 2))) :=
  ⟨((divisions_defined (mkElements "mode" "" ["Low", "Mid", "High"] 1 true false)
      (CFloat.fin (1 / 2)) (fun _ => CFloat.fin 0) "Mid" "mode" "" 0 2 1 3 1
      ["Low", "Mid", "High"] true false).2.2.1 (by decide)).2.2,
   ((divisions_defined (mkElements "mode" "" ["Only"] 0 true false)
      (CFloat.fin (1 / 2)) (fun _ => CFloat.fin 0) "Only" "mode" "" 0 2 1 3 0
      ["Only"] true false).2.2.2 (by decide)).2.2,
   ((divisions_defined (mkElements "mode" "" ["Low", "Mid", "High"] 1 true false)
      (CFloat.fin (1 / 2)) (fun _ => CFloat.fin 0) "Mid" "mode" "" 0 2 1 3 1
      ["Low", "Mid", "High"] true false).1 (by norm_num [mkElements])
      (by norm_num [mkElements])).2.2.1⟩

end CamomileAudioParameter

/-! ## Binary32 rounding: evaluation and error bounds -/

namespace Binary32

theorem binade_eq {x : ℚ} {e : ℤ} (h1 : (2 : ℚ) ^ e ≤ |x|) (h2 : |x| < (2 : ℚ) ^ (e + 1)) :
    binade x = e := by
  have hpos : 0 < |x| := lt_of_lt_of_le (by positivity) h1
  have a : e ≤ Int.log 2 |x| := by
    rw [← Int.zpow_le_iff_le_log (by norm_num) hpos]
    exact_mod_cast h1
  have b : Int.log 2 |x| < e + 1 := by
    rw [← Int.lt_zpow_iff_log_lt (by norm_num) hpos]
    exact_mod_cast h2
  unfold binade
  omega

theorem zpow_binade_le {x : ℚ} (hx : x ≠ 0) : (2 : ℚ) ^ binade x ≤ |x| := by
  have := Int.zpow_log_le_self (R := ℚ) (b := 2) (by norm_num) (abs_pos.mpr hx)
  exact_mod_cast this

theorem lt_zpow_binade_succ (x : ℚ) : |x| < (2 : ℚ) ^ (binade x + 1) := by
  have := Int.lt_zpow_succ_log_self (R := ℚ) (b := 2) (by norm_num) |x|
  exact_mod_cast this

theorem ulp_pos (x : ℚ) : 0 < ulp x := by
  unfold ulp
  positivity

/-- The nearest-even integer is within one half. -/
theorem roundEven_abs_sub_le (y : ℚ) : |(roundEven y : ℚ) - y| ≤ 1 / 2 := by
  have h1 := Int.floor_le y
  have h2 := Int.lt_floor_add_one y
  unfold roundEven
  split_ifs with a b c
  · rw [abs_le]; constructor <;> linarith
  · rw [abs_le]; constructor <;> push_cast <;> linarith
  · rw [abs_le]; constructor <;> linarith
  · rw [abs_le]; constructor <;> push_cast <;> linarith

/-- An integer closer than one half is the nearest-even integer. -/
theorem roundEven_eq_of_abs_lt {y : ℚ} {k : ℤ} (h : |y - k| < 1 / 2) : roundEven y = k := by
  have h3 := roundEven_abs_sub_le y
  rw [abs_lt] at h
  rw [abs_le] at h3
  have h4 : ((roundEven y - k : ℤ) : ℚ) < 1 := by push_cast; linarith
  have h5 : (-1 : ℚ) < ((roundEven y - k : ℤ) : ℚ) := by push_cast; linarith
  have h6 : roundEven y - k < 1 := by exact_mod_cast h4
  have h7 : -1 < roundEven y - k := by exact_mod_cast h5
  omega

theorem roundEven_intCast (k : ℤ) : roundEven (k : ℚ) = k :=
  roundEven_eq_of_abs_lt (by simp)

/-- Evaluation of the rounding: in the binade `e`, a multiple of the spacing
closer than half a spacing is the rounded value. -/
theorem rnd_eq {x : ℚ} (e k : ℤ) (h1 : (2 : ℚ) ^ e ≤ |x|) (h2 : |x| < (2 : ℚ) ^ (e + 1))
    (h3 : |x / (2 : ℚ) ^ (e - 23) - k| < 1 / 2) : rnd x = k * (2 : ℚ) ^ (e - 23) := by
  have hx : x ≠ 0 := by
    intro h0
    rw [h0, abs_zero] at h1
    exact absurd h1 (not_le.mpr (by positivity))
  unfold rnd ulp
  rw [if_neg hx, binade_eq h1 h2, roundEven_eq_of_abs_lt h3]

/-- In a halfway case the even neighbour is chosen. -/
theorem roundEven_eq_of_abs_le_of_even {y : ℚ} {k : ℤ} (h : |y - k| ≤ 1 / 2) (hk : k % 2 = 0) :
    roundEven y = k := by
  rcases lt_or_eq_of_le h with hlt | heq
  · exact roundEven_eq_of_abs_lt hlt
  · rcases abs_eq (by norm_num : (0 : ℚ) ≤ 1 / 2) |>.mp heq with e | e
    · have hy : y = (k : ℚ) + 1 / 2 := by linarith
      have hf : ⌊y⌋ = k := by
        rw [Int.floor_eq_iff]
        constructor <;> linarith
      unfold roundEven
      rw [hf]
      have h1 : ¬ (y - (k : ℚ) < 1 / 2) := by rw [hy]; norm_num
      have h2 : ¬ ((1 : ℚ) / 2 < y - (k : ℚ)) := by rw [hy]; norm_num
      rw [if_neg h1, if_neg h2, if_pos hk]
    · have hy : y = ((k - 1 : ℤ) : ℚ) + 1 / 2 := by push_cast; linarith
      have hf : ⌊y⌋ = k - 1 := by
        rw [Int.floor_eq_iff]
        constructor <;> push_cast <;> linarith
      unfold roundEven
      rw [hf]
      have h1 : ¬ (y - ((k - 1 : ℤ) : ℚ) < 1 / 2) := by rw [hy]; norm_num
      have h2 : ¬ ((1 : ℚ) / 2 < y - ((k - 1 : ℤ) : ℚ)) := by rw [hy]; norm_num
      have h3 : ¬ ((k - 1) % 2 = 0) := by omega
      rw [if_neg h1, if_neg h2, if_neg h3]
      ring

/-- Evaluation of the rounding in a halfway case. -/
theorem rnd_eq_of_even {x : ℚ} (e k : ℤ) (h1 : (2 : ℚ) ^ e ≤ |x|)
    (h2 : |x| < (2 : ℚ) ^ (e + 1)) (h3 : |x / (2 : ℚ) ^ (e - 23) - k| ≤ 1 / 2)
    (hk : k % 2 = 0) : rnd x = k * (2 : ℚ) ^ (e - 23) := by
  have hx : x ≠ 0 := by
    intro h0
    rw [h0, abs_zero] at h1
    exact absurd h1 (not_le.mpr (by positivity))
  unfold rnd ulp
  rw [if_neg hx, binade_eq h1 h2, roundEven_eq_of_abs_le_of_even h3 hk]

/-- The spacing of a binade is at most `2 ^ (-23)` times the magnitude. -/
theorem ulp_le {x : ℚ} (hx : x ≠ 0) : ulp x ≤ |x| / 2 ^ 23 := by
  have h := zpow_binade_le hx
  unfold ulp
  rw [zpow_sub₀ (by norm_num : (2 : ℚ) ≠ 0)]
  have : (2 : ℚ) ^ (23 : ℤ) = 2 ^ 23 := by norm_num
  rw [this]
  exact div_le_div_of_nonneg_right h (by positivity)

/-- Rounding error: at most half a spacing, hence at most `2 ^ (-24)` relative. -/
theorem rnd_abs_sub_le (x : ℚ) : |rnd x - x| ≤ |x| / 2 ^ 24 := by
  by_cases hx : x = 0
  · simp [rnd, hx]
  · have hu := ulp_pos x
    have h1 := roundEven_abs_sub_le (x / ulp x)
    have h2 : rnd x - x = ((roundEven (x / ulp x) : ℚ) - x / ulp x) * ulp x := by
      unfold rnd
      rw [if_neg hx]
      field_simp
    rw [h2, abs_mul, abs_of_pos hu]
    have h3 := ulp_le hx
    calc |(roundEven (x / ulp x) : ℚ) - x / ulp x| * ulp x
        ≤ 1 / 2 * ulp x := mul_le_mul_of_nonneg_right h1 hu.le
      _ ≤ 1 / 2 * (|x| / 2 ^ 23) := mul_le_mul_of_nonneg_left h3 (by norm_num)
      _ = |x| / 2 ^ 24 := by ring

/-- Every rounded result is the exact result times `1 + e` with `|e| ≤ 2 ^ (-24)`. -/
theorem rnd_eq_mul (x : ℚ) : ∃ e : ℚ, |e| ≤ 1 / 2 ^ 24 ∧ rnd x = x * (1 + e) := by
  by_cases hx : x = 0
  · exact ⟨0, by norm_num, by simp [rnd, hx]⟩
  · refine ⟨(rnd x - x) / x, ?_, by field_simp⟩
    rw [abs_div, div_le_iff₀ (abs_pos.mpr hx)]
    have := rnd_abs_sub_le x
    calc |rnd x - x| ≤ |x| / 2 ^ 24 := this
      _ = 1 / 2 ^ 24 * |x| := by ring

/-- Only zero rounds to zero. -/
theorem rnd_ne_zero {x : ℚ} (hx : x ≠ 0) : rnd x ≠ 0 := by
  intro h
  have h1 := rnd_abs_sub_le x
  rw [h, zero_sub, abs_neg] at h1
  have h2 : 0 < |x| := abs_pos.mpr hx
  have h3 : |x| / 2 ^ 24 < |x| := by
    rw [div_lt_iff₀ (by positivity)]
    nlinarith
  linarith

theorem rnd_zero : rnd 0 = 0 := by simp [rnd]

/-- Integers below `2 ^ 24` in magnitude are binary32 numbers. -/
theorem rnd_intCast (n : ℤ) (hn : |n| < 2 ^ 24) : rnd (n : ℚ) = n := by
  by_cases h0 : n = 0
  · simp [h0, rnd_zero]
  · have hx : (n : ℚ) ≠ 0 := by exact_mod_cast h0
    have hb := zpow_binade_le hx
    have hq : |(n : ℚ)| < (2 : ℚ) ^ (24 : ℤ) := by
      have : ((|n| : ℤ) : ℚ) < ((2 ^ 24 : ℤ) : ℚ) := by exact_mod_cast hn
      rw [Int.cast_abs] at this
      norm_num at this ⊢
      exact this
    have he : binade (n : ℚ) < 24 :=
      (zpow_lt_zpow_iff_right₀ (by norm_num : (1 : ℚ) < 2)).mp (lt_of_le_of_lt hb hq)
    obtain ⟨j, hj⟩ : ∃ j : ℕ, (j : ℤ) = 23 - binade (n : ℚ) := ⟨(23 - binade (n : ℚ)).toNat, by omega⟩
    have hu : ulp (n : ℚ) = 1 / (2 : ℚ) ^ j := by
      unfold ulp
      have : binade (n : ℚ) - 23 = -(j : ℤ) := by omega
      rw [this, zpow_neg, zpow_natCast, one_div]
    have hdiv : (n : ℚ) / ulp (n : ℚ) = ((n * 2 ^ j : ℤ) : ℚ) := by
      rw [hu]
      push_cast
      field_simp
    unfold rnd
    rw [if_neg hx, hdiv, roundEven_intCast, hu]
    push_cast
    field_simp

theorem rnd_one : rnd 1 = 1 := by
  have := rnd_intCast 1 (by norm_num)
  simpa using this

/-- Evaluation of the rounding with the result given in lowest terms. -/
theorem rnd_eval {x c : ℚ} (e k : ℤ) (h1 : (2 : ℚ) ^ e ≤ |x|) (h2 : |x| < (2 : ℚ) ^ (e + 1))
    (h3 : |x / (2 : ℚ) ^ (e - 23) - k| < 1 / 2) (hc : c = k * (2 : ℚ) ^ (e - 23)) :
    rnd x = c := by
  rw [hc]
  exact rnd_eq e k h1 h2 h3

/-- Evaluation of the rounding in a halfway case, result in lowest terms. -/
theorem rnd_eval_even {x c : ℚ} (e k : ℤ) (h1 : (2 : ℚ) ^ e ≤ |x|)
    (h2 : |x| < (2 : ℚ) ^ (e + 1)) (h3 : |x / (2 : ℚ) ^ (e - 23) - k| ≤ 1 / 2)
    (hk : k % 2 = 0) (hc : c = k * (2 : ℚ) ^ (e - 23)) : rnd x = c := by
  rw [hc]
  exact rnd_eq_of_even e k h1 h2 h3 hk

theorem fadd_fin {a b c : ℚ} (h : rnd (a + b) = c) :
    fadd (CFloat.fin a) (CFloat.fin b) = CFloat.fin c := by
  simp only [fadd, CFloat.fin_add_fin, CFloat.rnd, h]

theorem fsub_fin {a b c : ℚ} (h : rnd (a - b) = c) :
    fsub (CFloat.fin a) (CFloat.fin b) = CFloat.fin c := by
  simp only [fsub, CFloat.fin_sub_fin, CFloat.rnd, h]

theorem fmul_fin {a b c : ℚ} (h : rnd (a * b) = c) :
    fmul (CFloat.fin a) (CFloat.fin b) = CFloat.fin c := by
  simp only [fmul, CFloat.fin_mul_fin, CFloat.rnd, h]

theorem fdiv_fin {a b c : ℚ} (hb : b ≠ 0) (h : rnd (a / b) = c) :
    fdiv (CFloat.fin a) (CFloat.fin b) = CFloat.fin c := by
  simp only [fdiv, CFloat.fin_div_fin _ hb, CFloat.rnd, h]

theorem fsub_fin_eq (a b : ℚ) : fsub (CFloat.fin a) (CFloat.fin b) = CFloat.fin (rnd (a - b)) :=
  fsub_fin rfl

theorem fadd_fin_eq (a b : ℚ) : fadd (CFloat.fin a) (CFloat.fin b) = CFloat.fin (rnd (a + b)) :=
  fadd_fin rfl

theorem fmul_fin_eq (a b : ℚ) : fmul (CFloat.fin a) (CFloat.fin b) = CFloat.fin (rnd (a * b)) :=
  fmul_fin rfl

theorem fdiv_fin_eq (a : ℚ) {b : ℚ} (hb : b ≠ 0) :
    fdiv (CFloat.fin a) (CFloat.fin b) = CFloat.fin (rnd (a / b)) :=
  fdiv_fin hb rfl

/-- One more rounded factor widens the relative error of a product. -/
theorem abs_mul_one_add_sub_one_le {p e α u : ℚ} (hp : |p - 1| ≤ α) (he : |e| ≤ u) :
    |p * (1 + e) - 1| ≤ α + u + α * u := by
  have hα : 0 ≤ α := le_trans (abs_nonneg _) hp
  have h : p * (1 + e) - 1 = (p - 1) + e + (p - 1) * e := by ring
  rw [h]
  calc |(p - 1) + e + (p - 1) * e| ≤ |(p - 1) + e| + |(p - 1) * e| := abs_add _ _
    _ ≤ (|p - 1| + |e|) + |p - 1| * |e| := by
        rw [abs_mul]
        exact add_le_add_right (abs_add _ _) _
    _ ≤ α + u + α * u := by
        have := mul_le_mul hp he (abs_nonneg _) hα
        linarith

theorem abs_one_add_le {e u : ℚ} (he : |e| ≤ u) : |1 + e| ≤ 1 + u := by
  calc |1 + e| ≤ |(1 : ℚ)| + |e| := abs_add _ _
    _ ≤ 1 + u := by rw [abs_one]; linarith

/-- Normalising `x` with rounded operations and scaling it back returns `x`
up to `(4 |x - min| + |x|) / 2 ^ 24`. -/
theorem scale_normalise_error (x mn d : ℚ) (hd : d ≠ 0) :
    |rnd (rnd (rnd (rnd (x - mn) / d) * d) + mn) - x| ≤ (4 * |x - mn| + |x|) / 2 ^ 24 := by
  obtain ⟨e1, he1, h1⟩ := rnd_eq_mul (x - mn)
  obtain ⟨e2, he2, h2⟩ := rnd_eq_mul (rnd (x - mn) / d)
  obtain ⟨e3, he3, h3⟩ := rnd_eq_mul (rnd (rnd (x - mn) / d) * d)
  obtain ⟨e4, he4, h4⟩ := rnd_eq_mul (rnd (rnd (rnd (x - mn) / d) * d) + mn)
  have hy : rnd (rnd (rnd (rnd (x - mn) / d) * d) + mn) - x
      = (x - mn) * ((1 + e1) * (1 + e2) * (1 + e3) - 1) * (1 + e4) + x * e4 := by
    rw [h4, h3, h2, h1]
    field_simp
    ring
  have p1 : |(1 + e1) - 1| ≤ 1 / 2 ^ 24 := by simpa using he1
  have p2 := abs_mul_one_add_sub_one_le p1 he2
  have p3 := abs_mul_one_add_sub_one_le p2 he3
  have q4 := abs_one_add_le he4
  have hA : |((1 + e1) * (1 + e2) * (1 + e3) - 1) * (1 + e4)| ≤ 4 / 2 ^ 24 := by
    rw [abs_mul]
    calc |(1 + e1) * (1 + e2) * (1 + e3) - 1| * |1 + e4|
        ≤ (1 / 2 ^ 24 + 1 / 2 ^ 24 + 1 / 2 ^ 24 * (1 / 2 ^ 24) + 1 / 2 ^ 24
            + (1 / 2 ^ 24 + 1 / 2 ^ 24 + 1 / 2 ^ 24 * (1 / 2 ^ 24)) * (1 / 2 ^ 24))
          * (1 + 1 / 2 ^ 24) :=
          mul_le_mul p3 q4 (abs_nonneg _) (le_trans (abs_nonneg _) p3)
      _ ≤ 4 / 2 ^ 24 := by norm_num
  rw [hy]
  calc |(x - mn) * ((1 + e1) * (1 + e2) * (1 + e3) - 1) * (1 + e4) + x * e4|
      ≤ |(x - mn) * ((1 + e1) * (1 + e2) * (1 + e3) - 1) * (1 + e4)| + |x * e4| := abs_add _ _
    _ = |x - mn| * |((1 + e1) * (1 + e2) * (1 + e3) - 1) * (1 + e4)| + |x| * |e4| := by
        rw [mul_assoc, abs_mul, abs_mul x]
    _ ≤ |x - mn| * (4 / 2 ^ 24) + |x| * (1 / 2 ^ 24) :=
        add_le_add (mul_le_mul_of_nonneg_left hA (abs_nonneg _))
          (mul_le_mul_of_nonneg_left he4 (abs_nonneg _))
    _ = (4 * |x - mn| + |x|) / 2 ^ 24 := by ring

/-- Scaling `v` with rounded operations and normalising it back returns `v`
up to `(5 |v| + 2 |min| / |d|) / 2 ^ 24`. -/
theorem normalise_scale_error (v mn d : ℚ) (hd : d ≠ 0) :
    |rnd (rnd (rnd (rnd (v * d) + mn) - mn) / d) - v| ≤ (5 * |v| + 2 * |mn| / |d|) / 2 ^ 24 := by
  obtain ⟨e1, he1, h1⟩ := rnd_eq_mul (v * d)
  obtain ⟨e2, he2, h2⟩ := rnd_eq_mul (rnd (v * d) + mn)
  obtain ⟨e3, he3, h3⟩ := rnd_eq_mul (rnd (rnd (v * d) + mn) - mn)
  obtain ⟨e4, he4, h4⟩ := rnd_eq_mul (rnd (rnd (rnd (v * d) + mn) - mn) / d)
  have hy : rnd (rnd (rnd (rnd (v * d) + mn) - mn) / d) - v
      = v * ((1 + e1) * (1 + e2) * (1 + e3) * (1 + e4) - 1)
        + mn / d * (e2 * ((1 + e3) * (1 + e4))) := by
    rw [h4, h3, h2, h1]
    field_simp
    ring
  have p1 : |(1 + e1) - 1| ≤ 1 / 2 ^ 24 := by simpa using he1
  have p2 := abs_mul_one_add_sub_one_le p1 he2
  have p3 := abs_mul_one_add_sub_one_le p2 he3
  have p4 := abs_mul_one_add_sub_one_le p3 he4
  have hA : |(1 + e1) * (1 + e2) * (1 + e3) * (1 + e4) - 1| ≤ 5 / 2 ^ 24 :=
    le_trans p4 (by norm_num)
  have hB : |e2 * ((1 + e3) * (1 + e4))| ≤ 2 / 2 ^ 24 := by
    rw [abs_mul, abs_mul]
    calc |e2| * (|1 + e3| * |1 + e4|)
        ≤ 1 / 2 ^ 24 * ((1 + 1 / 2 ^ 24) * (1 + 1 / 2 ^ 24)) :=
          mul_le_mul he2
            (mul_le_mul (abs_one_add_le he3) (abs_one_add_le he4) (abs_nonneg _) (by norm_num))
            (mul_nonneg (abs_nonneg _) (abs_nonneg _)) (by norm_num)
      _ ≤ 2 / 2 ^ 24 := by norm_num
  rw [hy]
  calc |v * ((1 + e1) * (1 + e2) * (1 + e3) * (1 + e4) - 1)
        + mn / d * (e2 * ((1 + e3) * (1 + e4)))|
      ≤ |v * ((1 + e1) * (1 + e2) * (1 + e3) * (1 + e4) - 1)|
        + |mn / d * (e2 * ((1 + e3) * (1 + e4)))| := abs_add _ _
    _ = |v| * |(1 + e1) * (1 + e2) * (1 + e3) * (1 + e4) - 1|
        + |mn| / |d| * |e2 * ((1 + e3) * (1 + e4))| := by
        rw [abs_mul, abs_mul (mn / d), abs_div]
    _ ≤ |v| * (5 / 2 ^ 24) + |mn| / |d| * (2 / 2 ^ 24) :=
        add_le_add (mul_le_mul_of_nonneg_left hA (abs_nonneg _))
          (mul_le_mul_of_nonneg_left hB (div_nonneg (abs_nonneg _) (abs_nonneg _)))
    _ = (5 * |v| + 2 * |mn| / |d|) / 2 ^ 24 := by ring

/-- Evaluation of the rounding at an integer below `2 ^ 24` in magnitude. -/
theorem rnd_eval_int {x c : ℚ} (n : ℤ) (hx : x = n) (hc : c = n) (hn : |n| < 2 ^ 24) :
    rnd x = c := by
  rw [hx, hc]
  exact rnd_intCast n hn

theorem rnd_nonneg {x : ℚ} (hx : 0 ≤ x) : 0 ≤ rnd x := by
  obtain ⟨e, he, h⟩ := rnd_eq_mul x
  rw [h]
  have h1 : -(1 / 2 ^ 24) ≤ e := (abs_le.mp he).1
  have h2 : (0 : ℚ) ≤ 1 + e := by
    have : (1 : ℚ) / 2 ^ 24 ≤ 1 := by norm_num
    linarith
  exact mul_nonneg hx h2

/-- The nearest-even integer does not pass an integer bound. -/
theorem roundEven_le_of_le_intCast {y : ℚ} {n : ℤ} (h : y ≤ n) : roundEven y ≤ n := by
  by_contra hc
  push_neg at hc
  have h1 : (n : ℚ) + 1 ≤ roundEven y := by exact_mod_cast hc
  have h2 := (abs_le.mp (roundEven_abs_sub_le y)).2
  linarith

/-- Rounding does not pass an integer bound below `2 ^ 24`. -/
theorem rnd_le_intCast {x : ℚ} {n : ℤ} (hx0 : 0 ≤ x) (hxn : x ≤ n) (hn : n < 2 ^ 24) :
    rnd x ≤ n := by
  by_cases h0 : x = 0
  · rw [h0, rnd_zero]
    rw [h0] at hxn
    exact hxn
  · have hpos : 0 < x := lt_of_le_of_ne hx0 (Ne.symm h0)
    have hb := zpow_binade_le h0
    rw [abs_of_pos hpos] at hb
    have hq : x < (2 : ℚ) ^ (24 : ℤ) := by
      have : (n : ℚ) < ((2 ^ 24 : ℤ) : ℚ) := by exact_mod_cast hn
      norm_num at this ⊢
      linarith
    have he : binade x < 24 :=
      (zpow_lt_zpow_iff_right₀ (by norm_num : (1 : ℚ) < 2)).mp (lt_of_le_of_lt hb hq)
    obtain ⟨j, hj⟩ : ∃ j : ℕ, (j : ℤ) = 23 - binade x := ⟨(23 - binade x).toNat, by omega⟩
    have hu : ulp x = 1 / (2 : ℚ) ^ j := by
      unfold ulp
      have : binade x - 23 = -(j : ℤ) := by omega
      rw [this, zpow_neg, zpow_natCast, one_div]
    have hpow : (0 : ℚ) < (2 : ℚ) ^ j := by positivity
    have hdiv : x / ulp x ≤ ((n * 2 ^ j : ℤ) : ℚ) := by
      rw [hu]
      push_cast
      rw [div_div_eq_mul_div, div_one]
      exact mul_le_mul_of_nonneg_right hxn hpow.le
    have hr := roundEven_le_of_le_intCast hdiv
    have hr2 : (roundEven (x / ulp x) : ℚ) ≤ (n : ℚ) * 2 ^ j := by
      have : ((roundEven (x / ulp x) : ℤ) : ℚ) ≤ ((n * 2 ^ j : ℤ) : ℚ) := by exact_mod_cast hr
      push_cast at this
      exact this
    unfold rnd
    rw [if_neg h0]
    rw [hu] at hr2 ⊢
    rw [mul_one_div, div_le_iff₀ hpow]
    exact hr2

/-- The `%` of C++ and the remainder of Lean agree on oddness. -/
theorem tmod_two_ne_zero_iff (z : ℤ) : z.tmod 2 ≠ 0 ↔ z % 2 = 1 := by
  cases z with
  | ofNat n =>
    have : (Int.ofNat n).tmod 2 = ((n % 2 : ℕ) : ℤ) := rfl
    rw [this]
    have h2 : (Int.ofNat n) % 2 = ((n % 2 : ℕ) : ℤ) := rfl
    rw [h2]
    omega
  | negSucc n =>
    have : (Int.negSucc n).tmod 2 = -(((n + 1) % 2 : ℕ) : ℤ) := rfl
    rw [this, Int.negSucc_eq]
    omega

/-- The clamp of lines 100-101 on an argument that is a number. -/
theorem clamp_eq (value : CFloat) (hnan : value ≠ CFloat.nan) :
    (if CFloat.lt (if CFloat.gt value (CFloat.fin 1) then CFloat.fin 1 else value)
        (CFloat.fin 0) then CFloat.fin 0
      else (if CFloat.gt value (CFloat.fin 1) then CFloat.fin 1 else value))
      = CFloat.fin (clampUnit value) := by
  cases value with
  | nan => exact absurd rfl hnan
  | pinf =>
    have h10 : ¬ ((1 : ℚ) < 0) := by norm_num
    simp [CFloat.gt, CFloat.lt, clampUnit, h10]
  | ninf => simp [CFloat.gt, CFloat.lt, clampUnit]
  | fin q =>
    by_cases h1 : 1 < q
    · have h10 : ¬ ((1 : ℚ) < 0) := by norm_num
      simp [CFloat.gt, CFloat.lt, clampUnit, h1, min_eq_right h1.le, h10]
    · push_neg at h1
      by_cases h0 : q < 0
      · simp [CFloat.gt, CFloat.lt, clampUnit, not_lt.mpr h1, h0, min_eq_left h1,
          max_eq_left h0.le]
      · push_neg at h0
        simp [CFloat.gt, CFloat.lt, clampUnit, not_lt.mpr h1, not_lt.mpr h0, min_eq_left h1,
          max_eq_right h0]

theorem clampUnit_mem (value : CFloat) : 0 ≤ clampUnit value ∧ clampUnit value ≤ 1 := by
  cases value with
  | fin q => exact ⟨le_max_left _ _, max_le (by norm_num) (min_le_right _ _)⟩
  | pinf => exact ⟨by norm_num [clampUnit], by norm_num [clampUnit]⟩
  | ninf => exact ⟨by norm_num [clampUnit], by norm_num [clampUnit]⟩
  | nan => exact ⟨by norm_num [clampUnit], by norm_num [clampUnit]⟩

/-- For an argument that is a number, the index computed by `getText` is the
index of the specification. -/
theorem getTextIndex_eq (p : CamomileAudioParameter) (value : CFloat)
    (hnan : value ≠ CFloat.nan) :
    getTextIndex p value = some (specTextIndex p.m_maximum (clampUnit value)) := by
  unfold getTextIndex specTextIndex
  simp only [clamp_eq value hnan, fmul_fin_eq]
  by_cases hp : (CFloat.truncQ p.m_maximum) % 2 = 1
  · rw [if_pos ((tmod_two_ne_zero_iff _).mpr hp), if_pos hp]
    simp [CFloat.floor, CFloat.toInt, CFloat.truncQ_intCast]
  · rw [if_neg (fun h => hp ((tmod_two_ne_zero_iff _).mp h)), if_neg hp]
    simp [CFloat.ceil, CFloat.toInt, CFloat.truncQ_intCast]

/-- With an integer maximum below `2 ^ 24` the index of the specification
lies between `0` and the maximum. -/
theorem specTextIndex_range (n : ℤ) (c : ℚ) (hn0 : 0 ≤ n) (hn : n < 2 ^ 24) (hc0 : 0 ≤ c)
    (hc1 : c ≤ 1) : 0 ≤ specTextIndex (n : ℚ) c ∧ specTextIndex (n : ℚ) c ≤ n := by
  have hM : (0 : ℚ) ≤ (n : ℚ) := by exact_mod_cast hn0
  have h0 : 0 ≤ c * (n : ℚ) := mul_nonneg hc0 hM
  have h1 : c * (n : ℚ) ≤ n := by
    calc c * (n : ℚ) ≤ 1 * n := mul_le_mul_of_nonneg_right hc1 hM
      _ = n := one_mul _
  have r0 := rnd_nonneg h0
  have r1 := rnd_le_intCast h0 h1 hn
  unfold specTextIndex
  split_ifs
  · exact ⟨Int.floor_nonneg.mpr r0, by
      have := Int.floor_le (rnd (c * (n : ℚ)))
      have h3 : ((⌊rnd (c * (n : ℚ))⌋ : ℤ) : ℚ) ≤ (n : ℚ) := le_trans this r1
      exact_mod_cast h3⟩
  · exact ⟨Int.ceil_nonneg r0, Int.ceil_le.mpr r1⟩

end Binary32

/-! ## Scaling round trips in float arithmetic (C1, C10, C11) -/

namespace Binary32

/-- C1 (amended): for `minimum ≠ maximum` and every finite stored value `v`,
`setOriginalScaledValue (getOriginalScaledValue ())` stores a finite value
that differs from `v` by at most `(5 |v| + 2 |minimum| / |d|) / 2 ^ 24`, where
`d` is the float `maximum - minimum`. -/
theorem roundtrip_within_tolerance (p : CamomileAudioParameter) (v : ℚ)
    (hne : p.m_minimum ≠ p.m_maximum) (hv : p.getValue = CFloat.fin v) :
    ∃ w : ℚ, (setOriginalScaledValue p (getOriginalScaledValue p)).getValue = CFloat.fin w ∧
      |w - v| ≤ (5 * |v| + 2 * |p.m_minimum| / |rnd (p.m_maximum - p.m_minimum)|) / 2 ^ 24 := by
  have hd : rnd (p.m_maximum - p.m_minimum) ≠ 0 := rnd_ne_zero (sub_ne_zero.mpr (Ne.symm hne))
  have hv2 : p.m_value = CFloat.fin v := hv
  refine ⟨rnd (rnd (rnd (rnd (v * rnd (p.m_maximum - p.m_minimum)) + p.m_minimum)
    - p.m_minimum) / rnd (p.m_maximum - p.m_minimum)), ?_, normalise_scale_error v _ _ hd⟩
  simp only [setOriginalScaledValue, getOriginalScaledValue, CamomileAudioParameter.getValue, hv2,
    fsub_fin_eq, fmul_fin_eq, fadd_fin_eq, fdiv_fin_eq _ hd]

/-- Witness of C1 (amended): range `[-1, 1]`, stored value `0.1f`. -/
theorem roundtrip_within_tolerance_witness :
    ∃ w : ℚ, (setOriginalScaledValue
        ((mkRange "gain" "dB" (-1) 1 0 0 true false).withValue
          (CFloat.fin (13421773 / 134217728)))
        (getOriginalScaledValue
          ((mkRange "gain" "dB" (-1) 1 0 0 true false).withValue
            (CFloat.fin (13421773 / 134217728))))).getValue = CFloat.fin w ∧
      |w - 13421773 / 134217728|
        ≤ (5 * |(13421773 / 134217728 : ℚ)| + 2 * |(-1 : ℚ)| / |rnd (1 - (-1))|) / 2 ^ 24 :=
  roundtrip_within_tolerance
    ((mkRange "gain" "dB" (-1) 1 0 0 true false).withValue
      (CFloat.fin (13421773 / 134217728)))
    (13421773 / 134217728) (by norm_num [mkRange,
      CamomileAudioParameter.withValue]) rfl

/-- C1 fails as stated: on the range `[-1, 1]` the stored value `0.1f`
(`13421773 / 2 ^ 27`) comes back from
`setOriginalScaledValue (getOriginalScaledValue ())` as `13421772 / 2 ^ 27`. -/
theorem roundtrip_counterexample :
    ((mkRange "gain" "dB" (-1) 1 0 0 true false).withValue
        (CFloat.fin (13421773 / 134217728))).getValue = CFloat.fin (13421773 / 134217728) ∧
    (setOriginalScaledValue
        ((mkRange "gain" "dB" (-1) 1 0 0 true false).withValue
          (CFloat.fin (13421773 / 134217728)))
        (getOriginalScaledValue
          ((mkRange "gain" "dB" (-1) 1 0 0 true false).withValue
            (CFloat.fin (13421773 / 134217728))))).getValue
      = CFloat.fin (3355443 / 33554432) ∧
    (3355443 / 33554432 : ℚ) ≠ 13421773 / 134217728 := by
  have hd : fsub (CFloat.fin 1) (CFloat.fin (-1)) = CFloat.fin 2 :=
    fsub_fin (rnd_eval_int 2 (by norm_num) (by norm_num) (by norm_num))
  have h1 : fmul (CFloat.fin (13421773 / 134217728)) (CFloat.fin 2)
      = CFloat.fin (13421773 / 67108864) :=
    fmul_fin (rnd_eval (-3) 13421773 (by norm_num [le_abs]) (by norm_num [abs_lt])
      (by norm_num [abs_lt]) (by norm_num))
  have h2 : fadd (CFloat.fin (13421773 / 67108864)) (CFloat.fin (-1))
      = CFloat.fin (-13421773 / 16777216) :=
    fadd_fin (rnd_eval (-1) (-13421773) (by norm_num [le_abs]) (by norm_num [abs_lt])
      (by norm_num [abs_lt]) (by norm_num))
  have h3 : fsub (CFloat.fin (-13421773 / 16777216)) (CFloat.fin (-1))
      = CFloat.fin (3355443 / 16777216) :=
    fsub_fin (rnd_eval (-3) 13421772 (by norm_num [le_abs]) (by norm_num [abs_lt])
      (by norm_num [abs_lt]) (by norm_num))
  have h4 : fdiv (CFloat.fin (3355443 / 16777216)) (CFloat.fin 2)
      = CFloat.fin (3355443 / 33554432) :=
    fdiv_fin (by norm_num) (rnd_eval (-4) 13421772 (by norm_num [le_abs])
      (by norm_num [abs_lt]) (by norm_num [abs_lt]) (by norm_num))
  refine ⟨rfl, ?_, by norm_num⟩
  simp only [setOriginalScaledValue, getOriginalScaledValue, CamomileAudioParameter.getValue,
    mkRange, CamomileAudioParameter.withValue, hd, h1, h2, h3, h4]

/-- What `getOriginalScaledValue` returns after a normalised `x` was stored. -/
theorem getOriginalScaledValue_of_normalised (p : CamomileAudioParameter) (x : ℚ)
    (hne : p.m_minimum ≠ p.m_maximum)
    (hv : p.m_value = fdiv (fsub (CFloat.fin x) (CFloat.fin p.m_minimum))
      (fsub (CFloat.fin p.m_maximum) (CFloat.fin p.m_minimum))) :
    ∃ y : ℚ, getOriginalScaledValue p = CFloat.fin y ∧
      |y - x| ≤ (4 * |x - p.m_minimum| + |x|) / 2 ^ 24 := by
  have hd : rnd (p.m_maximum - p.m_minimum) ≠ 0 := rnd_ne_zero (sub_ne_zero.mpr (Ne.symm hne))
  refine ⟨rnd (rnd (rnd (rnd (x - p.m_minimum) / rnd (p.m_maximum - p.m_minimum))
    * rnd (p.m_maximum - p.m_minimum)) + p.m_minimum), ?_, scale_normalise_error x _ _ hd⟩
  simp only [getOriginalScaledValue, hv, fsub_fin_eq, fmul_fin_eq, fadd_fin_eq, fdiv_fin_eq _ hd]

/-- C10 (amended): for `minimum ≠ maximum` and every `x`,
`setOriginalScaledValue (x)` stores the float quotient
`(x - minimum) / (maximum - minimum)`, `setOriginalScaledValue (maximum)`
stores `1`, and `getOriginalScaledValue ()` then returns a finite value that
differs from `x` by at most `(4 |x - minimum| + |x|) / 2 ^ 24`. -/
theorem setOriginalScaledValue_within_tolerance (p : CamomileAudioParameter) (x : ℚ)
    (hne : p.m_minimum ≠ p.m_maximum) :
    (setOriginalScaledValue p (CFloat.fin x)).getValue
        = CFloat.fin (rnd (rnd (x - p.m_minimum) / rnd (p.m_maximum - p.m_minimum))) ∧
    (setOriginalScaledValue p (CFloat.fin p.m_maximum)).getValue = CFloat.fin 1 ∧
    ∃ y : ℚ, getOriginalScaledValue (setOriginalScaledValue p (CFloat.fin x)) = CFloat.fin y ∧
      |y - x| ≤ (4 * |x - p.m_minimum| + |x|) / 2 ^ 24 := by
  have hd : rnd (p.m_maximum - p.m_minimum) ≠ 0 := rnd_ne_zero (sub_ne_zero.mpr (Ne.symm hne))
  refine ⟨?_, ?_, ?_⟩
  · simp only [setOriginalScaledValue, CamomileAudioParameter.getValue, fsub_fin_eq,
      fdiv_fin_eq _ hd]
  · simp only [setOriginalScaledValue, CamomileAudioParameter.getValue, fsub_fin_eq,
      fdiv_fin_eq _ hd, div_self hd, rnd_one]
  · exact getOriginalScaledValue_of_normalised (setOriginalScaledValue p (CFloat.fin x)) x hne rfl

/-- Witness of C10 (amended): `(min = -1, max = 1)`, `setOriginalScaledValue (1)`
stores `1`. -/
theorem setOriginalScaledValue_within_tolerance_witness :
    (setOriginalScaledValue (mkRange "gain" "dB" (-1) 1 0 0 true false) (CFloat.fin 1)).getValue
      = CFloat.fin 1 :=
  (setOriginalScaledValue_within_tolerance (mkRange "gain" "dB" (-1) 1 0 0 true false) 1
    (by norm_num [mkRange])).2.1

/-- C10 fails as stated: on the range `[-1, 1]`, after
`setOriginalScaledValue (0.3f)` (`5033165 / 2 ^ 24`), `getOriginalScaledValue ()`
returns `1258291 / 2 ^ 22`, which is `0.29999995`. -/
theorem setOriginalScaledValue_counterexample :
    getOriginalScaledValue
        (setOriginalScaledValue (mkRange "gain" "dB" (-1) 1 0 0 true false)
          (CFloat.fin (5033165 / 16777216)))
      = CFloat.fin (1258291 / 4194304) ∧
    (1258291 / 4194304 : ℚ) ≠ 5033165 / 16777216 := by
  have hd : fsub (CFloat.fin 1) (CFloat.fin (-1)) = CFloat.fin 2 :=
    fsub_fin (rnd_eval_int 2 (by norm_num) (by norm_num) (by norm_num))
  have h1 : fsub (CFloat.fin (5033165 / 16777216)) (CFloat.fin (-1))
      = CFloat.fin (5452595 / 4194304) :=
    fsub_fin (rnd_eval_even 0 10905190 (by norm_num [le_abs]) (by norm_num [abs_lt])
      (by norm_num [abs_le]) (by decide) (by norm_num))
  have h2 : fdiv (CFloat.fin (5452595 / 4194304)) (CFloat.fin 2)
      = CFloat.fin (5452595 / 8388608) :=
    fdiv_fin (by norm_num) (rnd_eval (-1) 10905190 (by norm_num [le_abs])
      (by norm_num [abs_lt]) (by norm_num [abs_lt]) (by norm_num))
  have h3 : fmul (CFloat.fin (5452595 / 8388608)) (CFloat.fin 2)
      = CFloat.fin (5452595 / 4194304) :=
    fmul_fin (rnd_eval 0 10905190 (by norm_num [le_abs]) (by norm_num [abs_lt])
      (by norm_num [abs_lt]) (by norm_num))
  have h4 : fadd (CFloat.fin (5452595 / 4194304)) (CFloat.fin (-1))
      = CFloat.fin (1258291 / 4194304) :=
    fadd_fin (rnd_eval (-2) 10066328 (by norm_num [le_abs]) (by norm_num [abs_lt])
      (by norm_num [abs_lt]) (by norm_num))
  refine ⟨?_, by norm_num⟩
  simp only [setOriginalScaledValue, getOriginalScaledValue, mkRange, hd, h1, h2, h3, h4]

/-- C11 (amended): for a parameter built by the range constructor with
`minimum ≠ maximum`, or by the elements constructor from at least two labels,
`getOriginalScaledValue ()` right after construction is finite and differs
from the stored default `d` by at most `(4 |d - minimum| + |d|) / 2 ^ 24`; it
is exactly `0` for `(min = -1, max = 1, default = 0)`. -/
theorem getOriginalScaledValue_constructed_within_tolerance (name label : String)
    (min max def_ : ℚ) (nsteps idx : ℤ) (elems : List String) (automatable meta_ : Bool) :
    (min ≠ max → ∃ y : ℚ,
      getOriginalScaledValue (mkRange name label min max def_ nsteps automatable meta_)
        = CFloat.fin y ∧
      |y - def_| ≤ (4 * |def_ - min| + |def_|) / 2 ^ 24) ∧
    (2 ≤ elems.length → ∃ y : ℚ,
      getOriginalScaledValue (mkElements name label elems idx automatable meta_)
        = CFloat.fin y ∧
      |y - ofInt idx| ≤ (4 * |ofInt idx - 0| + |ofInt idx|) / 2 ^ 24) ∧
    getOriginalScaledValue (mkRange "gain" "dB" (-1) 1 0 0 true false) = CFloat.fin 0 := by
  refine ⟨?_, ?_, ?_⟩
  · intro hne
    exact getOriginalScaledValue_of_normalised
      (mkRange name label min max def_ nsteps automatable meta_) def_ hne rfl
  · intro hN
    have hM : (0 : ℚ) ≠ ofInt ((elems.length : ℤ) - 1) := by
      have h2 : ((elems.length : ℤ) : ℚ) - 1 ≠ 0 := by
        have : (2 : ℚ) ≤ elems.length := by exact_mod_cast hN
        intro h0
        push_cast at h0
        linarith
      have := rnd_ne_zero h2
      intro h
      apply this
      unfold ofInt at h
      push_cast at h
      exact h.symm
    exact getOriginalScaledValue_of_normalised
      (mkElements name label elems idx automatable meta_) (ofInt idx) hM rfl
  · have hd : fsub (CFloat.fin 1) (CFloat.fin (-1)) = CFloat.fin 2 :=
      fsub_fin (rnd_eval_int 2 (by norm_num) (by norm_num) (by norm_num))
    have h1 : fsub (CFloat.fin 0) (CFloat.fin (-1)) = CFloat.fin 1 :=
      fsub_fin (rnd_eval_int 1 (by norm_num) (by norm_num) (by norm_num))
    have h2 : fdiv (CFloat.fin 1) (CFloat.fin 2) = CFloat.fin (1 / 2) :=
      fdiv_fin (by norm_num) (rnd_eval (-1) 8388608 (by norm_num [le_abs])
        (by norm_num [abs_lt]) (by norm_num [abs_lt]) (by norm_num))
    have h3 : fmul (CFloat.fin (1 / 2)) (CFloat.fin 2) = CFloat.fin 1 :=
      fmul_fin (rnd_eval_int 1 (by norm_num) (by norm_num) (by norm_num))
    have h4 : fadd (CFloat.fin 1) (CFloat.fin (-1)) = CFloat.fin 0 :=
      fadd_fin (rnd_eval_int 0 (by norm_num) (by norm_num) (by norm_num))
    simp only [getOriginalScaledValue, mkRange, getDefaultValue, hd, h1, h2, h3, h4]

/-- Witness of C11 (amended): `(min = 0, max = 10, default = 0.1f)` and the
labels `Low, Mid, High` with default index 1. -/
theorem getOriginalScaledValue_constructed_within_tolerance_witness :
    (∃ y : ℚ, getOriginalScaledValue
        (mkRange "time" "s" 0 10 (13421773 / 134217728) 0 true false) = CFloat.fin y ∧
      |y - 13421773 / 134217728|
        ≤ (4 * |(13421773 / 134217728 : ℚ) - 0| + |(13421773 / 134217728 : ℚ)|) / 2 ^ 24) ∧
    (∃ y : ℚ, getOriginalScaledValue (mkElements "mode" "" ["Low", "Mid", "High"] 1 true false)
        = CFloat.fin y ∧
      |y - ofInt 1| ≤ (4 * |ofInt 1 - 0| + |ofInt 1|) / 2 ^ 24) :=
  ⟨(getOriginalScaledValue_constructed_within_tolerance "time" "s" 0 10 (13421773 / 134217728)
      0 1 ["Low", "Mid", "High"] true false).1 (by norm_num),
   (getOriginalScaledValue_constructed_within_tolerance "mode" "" 0 10 (13421773 / 134217728)
      0 1 ["Low", "Mid", "High"] true false).2.1 (by decide)⟩

/-- C11 fails as stated: constructed with `(min = 0, max = 10, default = 0.1f)`,
the parameter returns `3355443 / 2 ^ 25` (`0.099999994`) from
`getOriginalScaledValue ()`, not `0.1f = 13421773 / 2 ^ 27`. -/
theorem getOriginalScaledValue_constructed_counterexample :
    getOriginalScaledValue (mkRange "time" "s" 0 10 (13421773 / 134217728) 0 true false)
      = CFloat.fin (3355443 / 33554432) ∧
    (3355443 / 33554432 : ℚ) ≠ 13421773 / 134217728 := by
  have hd : fsub (CFloat.fin 10) (CFloat.fin 0) = CFloat.fin 10 :=
    fsub_fin (rnd_eval_int 10 (by norm_num) (by norm_num) (by norm_num))
  have h1 : fsub (CFloat.fin (13421773 / 134217728)) (CFloat.fin 0)
      = CFloat.fin (13421773 / 134217728) :=
    fsub_fin (rnd_eval (-4) 13421773 (by norm_num [le_abs]) (by norm_num [abs_lt])
      (by norm_num [abs_lt]) (by norm_num))
  have h2 : fdiv (CFloat.fin (13421773 / 134217728)) (CFloat.fin 10)
      = CFloat.fin (5368709 / 536870912) :=
    fdiv_fin (by norm_num) (rnd_eval (-7) 10737418 (by norm_num [le_abs])
      (by norm_num [abs_lt]) (by norm_num [abs_lt]) (by norm_num))
  have h3 : fmul (CFloat.fin (5368709 / 536870912)) (CFloat.fin 10)
      = CFloat.fin (3355443 / 33554432) :=
    fmul_fin (rnd_eval_even (-4) 13421772 (by norm_num [le_abs]) (by norm_num [abs_lt])
      (by norm_num [abs_le]) (by decide) (by norm_num))
  have h4 : fadd (CFloat.fin (3355443 / 33554432)) (CFloat.fin 0)
      = CFloat.fin (3355443 / 33554432) :=
    fadd_fin (rnd_eval (-4) 13421772 (by norm_num [le_abs]) (by norm_num [abs_lt])
      (by norm_num [abs_lt]) (by norm_num))
  refine ⟨?_, by norm_num⟩
  simp only [getOriginalScaledValue, mkRange, getDefaultValue, hd, h1, h2, h3, h4]

end Binary32

/-! ## Quantisation in float arithmetic (C2, C18) -/

namespace CFloat

/-- An integer closer than one half is the rounded value. -/
theorem roundQ_eq_of_abs_lt {y : ℚ} {k : ℤ} (h : |y - k| < 1 / 2) : roundQ y = k := by
  have h3 := roundQ_abs_sub_le y
  rw [abs_lt] at h
  rw [abs_le] at h3
  have h4 : ((roundQ y - k : ℤ) : ℚ) < 1 := by push_cast; linarith
  have h5 : (-1 : ℚ) < ((roundQ y - k : ℤ) : ℚ) := by push_cast; linarith
  have h6 : roundQ y - k < 1 := by exact_mod_cast h4
  have h7 : -1 < roundQ y - k := by exact_mod_cast h5
  omega

end CFloat

namespace Binary32

/-- What a discrete parameter stores on `setValue`. -/
theorem getValue_setValue_of_isDiscrete (p : CamomileAudioParameter) (w : CFloat)
    (hd : p.isDiscrete = true) :
    (setValue p w).getValue
      = fdiv (CFloat.round (fmul w (CFloat.fin p.m_maximum))) (CFloat.fin p.m_maximum) := by
  simp [setValue, hd, CamomileAudioParameter.getValue]

theorem isDiscrete_setValue (p : CamomileAudioParameter) (w : CFloat) :
    (setValue p w).isDiscrete = p.isDiscrete := by
  unfold setValue
  split_ifs <;> rfl

theorem m_maximum_setValue (p : CamomileAudioParameter) (w : CFloat) :
    (setValue p w).m_maximum = p.m_maximum := by
  unfold setValue
  split_ifs <;> rfl

/-- An integer of magnitude below `2 ^ 22`, divided by `m` and multiplied by
`m` again with rounded operations, is still nearer to itself than one half. -/
theorem quotient_product_near (k : ℤ) (m : ℚ) (hm : m ≠ 0) (hk : |k| < 2 ^ 22) :
    |rnd (rnd ((k : ℚ) / m) * m) - k| < 1 / 2 := by
  obtain ⟨e1, he1, h1⟩ := rnd_eq_mul ((k : ℚ) / m)
  obtain ⟨e2, he2, h2⟩ := rnd_eq_mul (rnd ((k : ℚ) / m) * m)
  have hy : rnd (rnd ((k : ℚ) / m) * m) - k = (k : ℚ) * ((1 + e1) * (1 + e2) - 1) := by
    rw [h2, h1]
    field_simp
    ring
  have p1 : |(1 + e1) - 1| ≤ 1 / 2 ^ 24 := by simpa using he1
  have p2 := abs_mul_one_add_sub_one_le p1 he2
  have hkq : |(k : ℚ)| ≤ 2 ^ 22 - 1 := by
    have hk1 : |k| ≤ 2 ^ 22 - 1 := by omega
    have : ((|k| : ℤ) : ℚ) ≤ ((2 ^ 22 - 1 : ℤ) : ℚ) := by exact_mod_cast hk1
    rw [Int.cast_abs] at this
    norm_num at this ⊢
    exact this
  rw [hy, abs_mul]
  calc |(k : ℚ)| * |(1 + e1) * (1 + e2) - 1|
      ≤ (2 ^ 22 - 1) * (1 / 2 ^ 24 + 1 / 2 ^ 24 + 1 / 2 ^ 24 * (1 / 2 ^ 24)) :=
        mul_le_mul hkq p2 (abs_nonneg _) (by norm_num)
    _ < 1 / 2 := by norm_num

/-- C18 (amended): for a discrete parameter with `maximum ≠ 0` and every
finite `v` whose quantised index `round (v * maximum)` has magnitude below
`2 ^ 22`, `setValue (v)` followed by `setValue (getValue ())` leaves
`getValue ()` unchanged. -/
theorem setValue_idempotent_small (p : CamomileAudioParameter) (q : ℚ)
    (hd : p.isDiscrete = true) (hmax : p.m_maximum ≠ 0)
    (hk : |CFloat.roundQ (rnd (q * p.m_maximum))| < 2 ^ 22) :
    (setValue (setValue p (CFloat.fin q)) (setValue p (CFloat.fin q)).getValue).getValue
      = (setValue p (CFloat.fin q)).getValue := by
  have hd2 : (setValue p (CFloat.fin q)).isDiscrete = true := by
    rw [isDiscrete_setValue]
    exact hd
  have h1 : (setValue p (CFloat.fin q)).getValue
      = CFloat.fin (rnd ((CFloat.roundQ (rnd (q * p.m_maximum)) : ℚ) / p.m_maximum)) := by
    rw [getValue_setValue_of_isDiscrete p _ hd]
    simp only [fmul_fin_eq, CFloat.round, fdiv_fin_eq _ hmax]
  rw [getValue_setValue_of_isDiscrete _ _ hd2, m_maximum_setValue, h1]
  simp only [fmul_fin_eq, CFloat.round, fdiv_fin_eq _ hmax]
  rw [CFloat.roundQ_eq_of_abs_lt (quotient_product_near _ p.m_maximum hmax hk)]

/-- Witness of C18 (amended): three steps over `[0, 2]`, `v = 0.25`. -/
theorem setValue_idempotent_small_witness :
    (setValue (setValue (mkRange "mode" "" 0 2 0 3 true false) (CFloat.fin (1 / 4)))
        (setValue (mkRange "mode" "" 0 2 0 3 true false) (CFloat.fin (1 / 4))).getValue).getValue
      = (setValue (mkRange "mode" "" 0 2 0 3 true false) (CFloat.fin (1 / 4))).getValue :=
  setValue_idempotent_small (mkRange "mode" "" 0 2 0 3 true false) (1 / 4)
    (by norm_num [mkRange, CamomileAudioParameter.isDiscrete]) (by norm_num [mkRange])
    (by
      have h : rnd (1 / 4 * (mkRange "mode" "" 0 2 0 3 true false).m_maximum) = 1 / 2 :=
        rnd_eval (-1) 8388608 (by norm_num [mkRange, le_abs]) (by norm_num [mkRange, abs_lt])
          (by norm_num [mkRange, abs_lt]) (by norm_num)
      rw [h]
      have h2 : CFloat.roundQ (1 / 2) = 1 := by
        simp only [CFloat.roundQ]
        norm_num
      rw [h2]
      norm_num)

/-- C18 fails as stated: with 101 steps over `[0, 100]` and `v = 78752.125`,
`setValue (v)` stores `10080273 / 128` (`78752.1328`) and a second
`setValue (getValue ())` stores `5040137 / 64` (`78752.1406`). -/
theorem setValue_idempotent_counterexample :
    (setValue (mkRange "level" "" 0 100 0 101 true false) (CFloat.fin (630017 / 8))).getValue
      = CFloat.fin (10080273 / 128) ∧
    (setValue (setValue (mkRange "level" "" 0 100 0 101 true false) (CFloat.fin (630017 / 8)))
        (setValue (mkRange "level" "" 0 100 0 101 true false)
          (CFloat.fin (630017 / 8))).getValue).getValue
      = CFloat.fin (5040137 / 64) ∧
    (5040137 / 64 : ℚ) ≠ 10080273 / 128 := by
  have hd : (mkRange "level" "" 0 100 0 101 true false).isDiscrete = true := by
    norm_num [mkRange, CamomileAudioParameter.isDiscrete]
  have hm : (mkRange "level" "" 0 100 0 101 true false).m_maximum = 100 := rfl
  have a1 : fmul (CFloat.fin (630017 / 8)) (CFloat.fin 100) = CFloat.fin (15750425 / 2) :=
    fmul_fin (rnd_eval 22 15750425 (by norm_num [le_abs]) (by norm_num [abs_lt])
      (by norm_num [abs_lt]) (by norm_num))
  have r1 : CFloat.round (CFloat.fin (15750425 / 2)) = CFloat.fin 7875213 := by
    have : CFloat.roundQ (15750425 / 2) = 7875213 := by
      simp only [CFloat.roundQ]
      norm_num
    simp [CFloat.round, this]
  have a2 : fdiv (CFloat.fin 7875213) (CFloat.fin 100) = CFloat.fin (10080273 / 128) :=
    fdiv_fin (by norm_num) (rnd_eval 16 10080273 (by norm_num [le_abs])
      (by norm_num [abs_lt]) (by norm_num [abs_lt]) (by norm_num))
  have b1 : fmul (CFloat.fin (10080273 / 128)) (CFloat.fin 100) = CFloat.fin (15750427 / 2) :=
    fmul_fin (rnd_eval 22 15750427 (by norm_num [le_abs]) (by norm_num [abs_lt])
      (by norm_num [abs_lt]) (by norm_num))
  have r2 : CFloat.round (CFloat.fin (15750427 / 2)) = CFloat.fin 7875214 := by
    have : CFloat.roundQ (15750427 / 2) = 7875214 := by
      simp only [CFloat.roundQ]
      norm_num
    simp [CFloat.round, this]
  have b2 : fdiv (CFloat.fin 7875214) (CFloat.fin 100) = CFloat.fin (5040137 / 64) :=
    fdiv_fin (by norm_num) (rnd_eval 16 10080274 (by norm_num [le_abs])
      (by norm_num [abs_lt]) (by norm_num [abs_lt]) (by norm_num))
  have s1 : (setValue (mkRange "level" "" 0 100 0 101 true false)
      (CFloat.fin (630017 / 8))).getValue = CFloat.fin (10080273 / 128) := by
    rw [getValue_setValue_of_isDiscrete _ _ hd, hm, a1, r1, a2]
  have hd2 : (setValue (mkRange "level" "" 0 100 0 101 true false)
      (CFloat.fin (630017 / 8))).isDiscrete = true := by
    rw [isDiscrete_setValue]
    exact hd
  refine ⟨s1, ?_, by norm_num⟩
  rw [getValue_setValue_of_isDiscrete _ _ hd2, m_maximum_setValue, hm, s1, b1, r2, b2]

/-- C2: after `setValue (v)` a discrete parameter (`m_nsteps > 0`, an `int`)
stores the float quotient `round (v * maximum) / maximum`, where `round` of
the float product is the integer nearest to it, halfway cases going away from
zero; a continuous parameter (`m_nsteps ≤ 0`) stores `v` itself. -/
theorem setValue_getValue (p : CamomileAudioParameter) (v : CFloat) :
    (0 < p.m_nsteps → p.m_nsteps < 2 ^ 31 →
      (setValue p v).getValue
        = fdiv (CFloat.round (fmul v (CFloat.fin p.m_maximum))) (CFloat.fin p.m_maximum) ∧
      ∀ q : ℚ, v = CFloat.fin q →
        ∃ k : ℤ, (setValue p v).getValue = fdiv (CFloat.fin k) (CFloat.fin p.m_maximum) ∧
          |(k : ℚ) - rnd (q * p.m_maximum)| ≤ 1 / 2 ∧
          (|(k : ℚ) - rnd (q * p.m_maximum)| = 1 / 2 → |rnd (q * p.m_maximum)| < |(k : ℚ)|)) ∧
    (p.m_nsteps ≤ 0 → (setValue p v).getValue = v) := by
  constructor
  · intro hpos hint
    have hq : (p.m_nsteps : ℚ) < 10 ^ 37 := by
      have : (p.m_nsteps : ℚ) < 2 ^ 31 := by exact_mod_cast hint
      linarith [show (2 : ℚ) ^ 31 < 10 ^ 37 by norm_num]
    have hd : p.isDiscrete = true := by simp [CamomileAudioParameter.isDiscrete, hpos, hq]
    refine ⟨getValue_setValue_of_isDiscrete p v hd, ?_⟩
    intro q hvq
    refine ⟨CFloat.roundQ (rnd (q * p.m_maximum)), ?_, CFloat.roundQ_abs_sub_le _,
      CFloat.roundQ_tie_away _⟩
    rw [getValue_setValue_of_isDiscrete p v hd, hvq, fmul_fin_eq, CFloat.round]
  · intro hle
    have hd : p.isDiscrete = false := by simp [CamomileAudioParameter.isDiscrete, hle]
    simp [setValue, hd, CamomileAudioParameter.getValue]

/-- Witness of C2: six steps over `[0, 5]`, `setValue (0.7f)`: the float
product is `3.5`, its rounding `4`, and `0.8f` is stored; the same range
without steps stores `0.7f`. -/
theorem setValue_getValue_witness :
    (setValue (mkRange "mode" "" 0 5 0 6 true false) (CFloat.fin (11744051 / 16777216))).getValue
        = CFloat.fin (13421773 / 16777216) ∧
    (setValue (mkRange "mode" "" 0 5 0 0 true false) (CFloat.fin (11744051 / 16777216))).getValue
        = CFloat.fin (11744051 / 16777216) := by
  have h := ((setValue_getValue (mkRange "mode" "" 0 5 0 6 true false)
    (CFloat.fin (11744051 / 16777216))).1 (by norm_num [mkRange]) (by norm_num [mkRange])).1
  have hm : (mkRange "mode" "" 0 5 0 6 true false).m_maximum = 5 := rfl
  have a1 : fmul (CFloat.fin (11744051 / 16777216)) (CFloat.fin 5) = CFloat.fin (7 / 2) :=
    fmul_fin (rnd_eval 1 14680064 (by norm_num [le_abs]) (by norm_num [abs_lt])
      (by norm_num [abs_lt]) (by norm_num))
  have r1 : CFloat.round (CFloat.fin (7 / 2)) = CFloat.fin 4 := by
    have : CFloat.roundQ (7 / 2) = 4 := by
      simp only [CFloat.roundQ]
      norm_num
    simp [CFloat.round, this]
  have a2 : fdiv (CFloat.fin 4) (CFloat.fin 5) = CFloat.fin (13421773 / 16777216) :=
    fdiv_fin (by norm_num) (rnd_eval (-1) 13421773 (by norm_num [le_abs])
      (by norm_num [abs_lt]) (by norm_num [abs_lt]) (by norm_num))
  rw [hm, a1, r1, a2] at h
  exact ⟨h, (setValue_getValue (mkRange "mode" "" 0 5 0 0 true false)
    (CFloat.fin (11744051 / 16777216))).2 (by norm_num [mkRange])⟩

end Binary32

/-! ## Text conversion in float arithmetic (C3, C9, C17, C19) -/

namespace Binary32

/-- Enumerated branch of `getText` for an argument that is a number. -/
theorem getText_of_ne_nan (fmt : CFloat → String) (p : CamomileAudioParameter) (value : CFloat)
    (maxLen : ℤ) (hne : p.m_elements ≠ []) (hnan : value ≠ CFloat.nan) :
    getText fmt p value maxLen
      = some (substring (elementAt p.m_elements (specTextIndex p.m_maximum (clampUnit value)))
          0 maxLen) := by
  have hemp : p.m_elements.isEmpty = false := by
    cases h : p.m_elements with
    | nil => exact absurd h hne
    | cons _ _ => rfl
  unfold getText
  rw [hemp, getTextIndex_eq p value hnan]
  rfl

/-- C9 (amended): for a non-empty label list, every `value` other than `NaN`
and every `maxLen`, `getText (value, maxLen)` is `elements[k]` truncated to
`maxLen`, where `c` is `value` clamped to `[0, 1]` and `k` is
`floor (c * maximum)` when `int (maximum)` is odd, `ceil (c * maximum)` when it
is even (float product); with at most `2 ^ 24` labels `k` addresses a label. -/
theorem getText_enumerated (fmt : CFloat → String) (name label : String) (elems : List String)
    (idx : ℤ) (automatable meta_ : Bool) (w value : CFloat) (maxLen : ℤ)
    (hne : elems ≠ []) (hnan : value ≠ CFloat.nan) :
    getText fmt ((mkElements name label elems idx automatable meta_).withValue w) value maxLen
      = some (substring
          (elementAt elems
            (specTextIndex (ofInt ((elems.length : ℤ) - 1)) (clampUnit value))) 0 maxLen) ∧
    (elems.length ≤ 2 ^ 24 →
      0 ≤ specTextIndex (ofInt ((elems.length : ℤ) - 1)) (clampUnit value) ∧
      specTextIndex (ofInt ((elems.length : ℤ) - 1)) (clampUnit value) < elems.length) := by
  refine ⟨getText_of_ne_nan fmt _ value maxLen hne hnan, ?_⟩
  intro hN
  have hpos : 0 < elems.length := List.length_pos.mpr hne
  have hn0 : (0 : ℤ) ≤ (elems.length : ℤ) - 1 := by omega
  have hn : (elems.length : ℤ) - 1 < 2 ^ 24 := by
    have : (elems.length : ℤ) ≤ 2 ^ 24 := by exact_mod_cast hN
    omega
  have hM : ofInt ((elems.length : ℤ) - 1) = (((elems.length : ℤ) - 1 : ℤ) : ℚ) :=
    rnd_intCast _ (by rw [abs_of_nonneg hn0]; exact hn)
  rw [hM]
  have hc := clampUnit_mem value
  have := specTextIndex_range ((elems.length : ℤ) - 1) (clampUnit value) hn0 hn hc.1 hc.2
  exact ⟨this.1, by omega⟩

/-- Witness of C9 (amended): labels `Low, Mid, High`, `getText (0.5, 32)` is `"Mid"`. -/
theorem getText_enumerated_witness :
    getText (fun _ => "") (mkElements "mode" "" ["Low", "Mid", "High"] 1 true false)
      (CFloat.fin (1 / 2)) 32 = some "Mid" := by
  have h := (getText_enumerated (fun _ => "") "mode" "" ["Low", "Mid", "High"] 1 true false
    (mkElements "mode" "" ["Low", "Mid", "High"] 1 true false).m_value (CFloat.fin (1 / 2)) 32
    (by decide) (by simp)).1
  have hM : ofInt (((["Low", "Mid", "High"].length : ℕ) : ℤ) - 1) = 2 :=
    rnd_eval_int 2 (by norm_num) (by norm_num) (by norm_num)
  have hr : rnd ((1 : ℚ) / 2 * 2) = 1 :=
    rnd_eval_int 1 (by norm_num) (by norm_num) (by norm_num)
  have hk : specTextIndex 2 (clampUnit (CFloat.fin (1 / 2))) = 1 := by
    have ht : CFloat.truncQ 2 = 2 := by simpa using CFloat.truncQ_intCast 2
    have hc : clampUnit (CFloat.fin (1 / 2)) = 1 / 2 := by
      simp only [clampUnit]
      norm_num
    simp only [specTextIndex, ht, hc, hr]
    norm_num
  rw [hM, hk] at h
  exact h

/-- C9 fails as stated: for the argument `NaN` neither comparison of lines
100-101 clamps, the product is `NaN`, and its conversion to `int` is
undefined, so no label is selected. -/
theorem getText_enumerated_counterexample :
    getText (fun _ => "") (mkElements "mode" "" ["Low", "Mid", "High"] 1 true false)
      CFloat.nan 32 = none := by
  have h1 : CFloat.gt CFloat.nan (CFloat.fin 1) = false := rfl
  have h2 : CFloat.lt CFloat.nan (CFloat.fin 0) = false := rfl
  have h3 : ∀ m : ℚ, fmul CFloat.nan (CFloat.fin m) = CFloat.nan := fun _ => rfl
  have he : (mkElements "mode" "" ["Low", "Mid", "High"] 1 true false).m_elements.isEmpty
      = false := rfl
  simp only [getText, he, getTextIndex, h1, h2, h3, Bool.false_eq_true, if_false]
  split_ifs <;> rfl

/-- C17 at the failing input: a parameter built from one label stores `0 / 0`,
which is `NaN`, and for that stored value the index of `getText` is undefined
(no value of `[0, N - 1]`). -/
theorem getTextIndex_of_stored_value_undefined :
    (mkElements "mode" "" ["Only"] 0 true false).getValue = CFloat.nan ∧
    getTextIndex (mkElements "mode" "" ["Only"] 0 true false)
      (mkElements "mode" "" ["Only"] 0 true false).getValue = none := by
  have hz : ofInt 0 = 0 := rnd_zero
  have hz1 : ofInt (((["Only"].length : ℕ) : ℤ) - 1) = 0 := by
    have : (((["Only"].length : ℕ) : ℤ) - 1) = 0 := by decide
    rw [this]
    exact rnd_zero
  have hs : fsub (CFloat.fin 0) (CFloat.fin 0) = CFloat.fin 0 :=
    fsub_fin (by norm_num [rnd_zero])
  have hv : (mkElements "mode" "" ["Only"] 0 true false).getValue = CFloat.nan := by
    simp only [mkElements, CamomileAudioParameter.getValue, getDefaultValue, hz, hz1, hs, fdiv,
      CFloat.fin_div_zero]
    simp [CFloat.ofSign, CFloat.rnd]
  refine ⟨hv, ?_⟩
  rw [hv]
  have h1 : CFloat.gt CFloat.nan (CFloat.fin 1) = false := rfl
  have h2 : CFloat.lt CFloat.nan (CFloat.fin 0) = false := rfl
  have h3 : ∀ m : ℚ, fmul CFloat.nan (CFloat.fin m) = CFloat.nan := fun _ => rfl
  simp only [getTextIndex, h1, h2, h3, Bool.false_eq_true, if_false]
  split_ifs <;> rfl

/-- Arithmetic of the failing input of C3 and C19: `7.f / 23.f` is
`5106109 / 2 ^ 24`, and its float product with `23` is `14680063 / 2 ^ 21`,
just below 7. -/
theorem seven_over_twentythree :
    fdiv (CFloat.fin 7) (CFloat.fin 23) = CFloat.fin (5106109 / 16777216) ∧
    fmul (CFloat.fin (5106109 / 16777216)) (CFloat.fin 23)
      = CFloat.fin (14680063 / 2097152) :=
  ⟨fdiv_fin (by norm_num) (rnd_eval (-2) 10212218 (by norm_num [le_abs])
      (by norm_num [abs_lt]) (by norm_num [abs_lt]) (by norm_num)),
   fmul_fin (rnd_eval 2 14680063 (by norm_num [le_abs]) (by norm_num [abs_lt])
      (by norm_num [abs_lt]) (by norm_num))⟩

/-- The index `getText` computes over 24 labels for the float `7.f / 23.f`. -/
theorem getTextIndex_labels24 (name label : String) (idx : ℤ) (automatable meta_ : Bool) :
    getTextIndex (mkElements name label labels24 idx automatable meta_)
      (CFloat.fin (5106109 / 16777216)) = some 6 := by
  have hM : (mkElements name label labels24 idx automatable meta_).m_maximum = 23 := by
    show ofInt (((labels24.length : ℕ) : ℤ) - 1) = 23
    exact rnd_eval_int 23 (by norm_num [labels24]) (by norm_num) (by norm_num)
  have ht : CFloat.truncQ 23 = 23 := by simpa using CFloat.truncQ_intCast 23
  have hg : CFloat.gt (CFloat.fin (5106109 / 16777216)) (CFloat.fin 1) = false := by
    simp only [CFloat.gt, CFloat.lt]
    norm_num
  have hl : CFloat.lt (CFloat.fin (5106109 / 16777216)) (CFloat.fin 0) = false := by
    simp only [CFloat.lt]
    norm_num
  have hf : ⌊(14680063 / 2097152 : ℚ)⌋ = 6 := by
    rw [Int.floor_eq_iff]
    norm_num
  have h6 : CFloat.truncQ ((6 : ℤ) : ℚ) = 6 := CFloat.truncQ_intCast 6
  simp only [getTextIndex, hM, ht, hg, hl, seven_over_twentythree.2, CFloat.floor, CFloat.toInt,
    hf, h6, Bool.false_eq_true, if_false]
  rfl

/-- C3 at the failing input: over the 24 labels `e0 … e23` the argument
`7.f / 23.f` selects `e6`, not `elements[7] = e7`; the rounding that
`setValue` applies to the same product gives `7`. -/
theorem getText_at_index_off_by_one :
    elementAt labels24 7 = "e7" ∧
    getText (fun _ => "") (mkElements "mode" "" labels24 0 true false)
      (fdiv (CFloat.fin 7) (CFloat.fin 23)) 32 = some "e6" ∧
    CFloat.round (fmul (fdiv (CFloat.fin 7) (CFloat.fin 23)) (CFloat.fin 23)) = CFloat.fin 7 := by
  refine ⟨by decide, ?_, ?_⟩
  swap
  · rw [seven_over_twentythree.1, seven_over_twentythree.2]
    have : CFloat.roundQ (14680063 / 2097152) = 7 := by
      simp only [CFloat.roundQ]
      norm_num
    simp [CFloat.round, this]
  have he : (mkElements "mode" "" labels24 0 true false).m_elements = labels24 := rfl
  have hemp : labels24.isEmpty = false := rfl
  unfold getText
  rw [seven_over_twentythree.1, he, hemp, getTextIndex_labels24]
  decide

/-- C19 at the failing input: over the 24 labels `e0 … e23`,
`getText (getValueForText ("e7"), 32)` returns `e6`. -/
theorem getText_getValueForText_off_by_one :
    getValueForText (fun _ => CFloat.fin 0) (mkElements "mode" "" labels24 0 true false) "e7"
      = CFloat.fin (5106109 / 16777216) ∧
    getText (fun _ => "") (mkElements "mode" "" labels24 0 true false)
      (getValueForText (fun _ => CFloat.fin 0) (mkElements "mode" "" labels24 0 true false)
        "e7") 32 = some "e6" := by
  have he : (mkElements "mode" "" labels24 0 true false).m_elements = labels24 := rfl
  have hemp : labels24.isEmpty = false := rfl
  have hM : (mkElements "mode" "" labels24 0 true false).m_maximum = 23 := by
    show ofInt (((labels24.length : ℕ) : ℤ) - 1) = 23
    exact rnd_eval_int 23 (by norm_num [labels24]) (by norm_num) (by norm_num)
  have hi : indexOf labels24 "e7" = 7 := by decide
  have h7 : ofInt 7 = 7 := rnd_eval_int 7 (by norm_num) (by norm_num) (by norm_num)
  have hv : getValueForText (fun _ => CFloat.fin 0)
      (mkElements "mode" "" labels24 0 true false) "e7" = CFloat.fin (5106109 / 16777216) := by
    unfold getValueForText
    rw [he, hemp, hM, hi, h7]
    exact seven_over_twentythree.1
  refine ⟨hv, ?_⟩
  rw [hv]
  unfold getText
  rw [he, hemp, getTextIndex_labels24]
  decide

end Binary32

end Camomile
